import Mathlib

/-!
Shallow embedding of the small-cuckoo hash table (small-cuckoo.c /
small-cuckoo.h): a cuckoo hash table keyed by 64-bit integers, storing
16-bit indices into a growable entry store.

Machine integers are modelled as `Nat` with explicit reductions modulo
2^16 / 2^32 / 2^64 exactly where the C types truncate.  Statefulness is
modelled by explicit state passing on the structure `SmallCuckoo`.
Aborts (the ENSURE macros) and undefined behaviour (out-of-bounds reads
of the entry store) are modelled by `Option`, `none` meaning the C
program aborted or entered undefined behaviour.  The unbounded
grow-and-retry recursion of `insert` is modelled with an explicit fuel
counter bounding the number of table doublings; `none` on fuel
exhaustion means the modelled run did not complete within that many
doublings.  Uninitialized memory returned by `malloc` (the entry-0
sentinel in `small_cuckoo_new`, the slot table and the trailing 4 bytes
of each 8-byte write in the serializer) is made explicit as `junk` / `g`
parameters, since the C code leaves those bytes unspecified.
-/

/-- Larson's multiplicative hash, from `larsons_hash` in small-cuckoo.c.
The C routine walks `(uint8_t *)&key` seven times on a little-endian
machine, so it consumes exactly the low 7 bytes of the 64-bit key; the
`uint32_t` accumulator wraps modulo 2^32 and the `uint16_t` return type
truncates `h ^ (h >> 16)` modulo 2^16. -/
def larsons_hash (key : Nat) : Nat :=
  let step : Nat → Nat → Nat := fun h i => (h * 101 + key / 256 ^ i % 256) % 4294967296
  let h := step (step (step (step (step (step (step 3735928559 0) 1) 2) 3) 4) 5) 6
  (Nat.xor h (h / 65536)) % 65536

/-- Even-slot hash selector `hash_1` from small-cuckoo.c:
`(larsons_hash(key) & ((n>>1)-1)) << 1`, truncated to `uint16_t`.
All call sites use a power-of-two table size `n ≥ 2`, for which the Nat
subtraction `n / 2 - 1` agrees with the C `size_t` arithmetic. -/
def hash_1 (n key : Nat) : Nat :=
  Nat.land (larsons_hash key) (n / 2 - 1) * 2 % 65536

/-- 32-bit left rotation `rot(x,k)` from Bob Jenkins's code in
small-cuckoo.c, for `x < 2^32` and `0 < k < 32`. -/
def rot32 (x k : Nat) : Nat :=
  Nat.lor (x * 2 ^ k % 4294967296) (x / 2 ^ (32 - k))

/-- 32-bit wrapping subtraction. -/
def sub32 (x y : Nat) : Nat :=
  (x + (4294967296 - y % 4294967296)) % 4294967296

/-- The `final(a,b,c)` mixing step of Jenkins's `hashword` in
small-cuckoo.c, returning the final value of `c`. -/
def jenkins_final (a0 b0 c0 : Nat) : Nat :=
  let c1 := sub32 (Nat.xor c0 b0) (rot32 b0 14)
  let a1 := sub32 (Nat.xor a0 c1) (rot32 c1 11)
  let b1 := sub32 (Nat.xor b0 a1) (rot32 a1 25)
  let c2 := sub32 (Nat.xor c1 b1) (rot32 b1 16)
  let a2 := sub32 (Nat.xor a1 c2) (rot32 c2 4)
  let b2 := sub32 (Nat.xor b1 a2) (rot32 a2 14)
  sub32 (Nat.xor c2 b2) (rot32 b2 24)

/-- Jenkins's `hashword` from small-cuckoo.c specialised to its only
call: a 2-word key `[k0, k1]` and `initval = 0x55555555`.  With
`length = 2` the mixing loop is skipped and the switch falls through
`case 2` (`b += k[1]`) into `case 1` (`a += k[0]`) before `final`. -/
def hashword_2w (k0 k1 : Nat) : Nat :=
  let init := (3735928559 + 8 + 1431655765) % 4294967296
  jenkins_final ((init + k0) % 4294967296) ((init + k1) % 4294967296) init

/-- Odd-slot hash selector `hash_2` (the portable, non-SSE4.2 build of
small-cuckoo.c): Jenkins `hashword` over the two 32-bit halves of the
key (little-endian word order), folded by `h ^= h >> 16`, then
`1 + ((h & ((n>>1)-1)) << 1)` truncated to `uint16_t`. -/
def hash_2 (n key : Nat) : Nat :=
  let h := hashword_2w (key % 4294967296) (key / 4294967296 % 4294967296)
  let h := Nat.xor h (h / 65536)
  (1 + Nat.land h (n / 2 - 1) * 2) % 65536

/-- `ceil_pow2` from bithacks.h: round up to the lowest power of two
that is ≥ the argument, on wrapping 64-bit arithmetic (so
`ceil_pow2 0 = 0`, since `--x` wraps to `2^64 - 1` and `++x` wraps back
to `0`).  The C source ors in shifts only up to `>> 16`, faithfully
reproduced here. -/
def ceil_pow2 (x : Nat) : Nat :=
  let x := (x + 18446744073709551616 - 1) % 18446744073709551616
  let x := Nat.lor x (x / 2)
  let x := Nat.lor x (x / 4)
  let x := Nat.lor x (x / 16)
  let x := Nat.lor x (x / 256)
  let x := Nat.lor x (x / 65536)
  (x + 1) % 18446744073709551616

/-- The `small_cuckoo` structure from small-cuckoo.h.  `table` is the
slot table (a list of `table_size` 16-bit entry indices, 0 = empty);
`entries` models the initialized prefix of the entry store (the C array
has capacity `entries_len`, but cells at index ≥ the logical count are
never read before being written).  `n_entries` and `entries_len` are
`uint16_t` and wrap modulo 2^16 where the C does. -/
structure SmallCuckoo where
  table_size : Nat
  table : List Nat
  n_entries : Nat
  entries_len : Nat
  entries : List (Nat × Nat)
deriving DecidableEq

/-- `small_cuckoo_new`.  The slot table is `calloc`ed (all zero); the
entry store is `malloc`ed, so the contents of the reserved entry 0 are
uninitialized memory, made explicit as the parameter `junk`.  The
`1 << (ceil_pow2(initial_size)+1)` table size is modelled exactly (the
claims only exercise small hints, where the C shift does not overflow). -/
def small_cuckoo_new (initial_size : Nat) (junk : Nat × Nat) : SmallCuckoo :=
  let ts := 2 ^ (ceil_pow2 initial_size + 1)
  { table_size := ts
    table := List.replicate ts 0
    n_entries := 1
    entries_len := (1 + initial_size) % 65536
    entries := [junk] }

/-- One `X(fn)` step of the eviction loop in `insert` (small-cuckoo.c):
hash the key of entry `i`, then exchange slot `table[h]` with `i` (the C
three-instruction XOR swap).  Returns the updated state and the evicted
occupant.  Reading `entries[i]` out of bounds is undefined behaviour in
C and yields `none` here. -/
def evict_step (f : Nat → Nat → Nat) (sc : SmallCuckoo) (i : Nat) :
    Option (SmallCuckoo × Nat) :=
  match sc.entries.get? i with
  | none => none
  | some e =>
    let h := f sc.table_size e.1
    some ({ sc with table := sc.table.set h i }, sc.table.getD h 0)

/-- The bounded eviction loop of `insert`: up to `n` rounds, each doing
an `X(hash_1)` then an `X(hash_2)` step, returning as soon as the
in-hand index becomes 0 (an empty slot was filled).  `insert` runs it
with `n = MAX_LOOPS = 20`. -/
def evict_loop : Nat → SmallCuckoo → Nat → Option (SmallCuckoo × Nat)
  | 0, sc, i => some (sc, i)
  | n + 1, sc, i =>
    match evict_step hash_1 sc i with
    | none => none
    | some (sc1, i1) =>
      if i1 = 0 then some (sc1, 0)
      else
        match evict_step hash_2 sc1 i1 with
        | none => none
        | some (sc2, i2) =>
          if i2 = 0 then some (sc2, 0)
          else evict_loop n sc2 i2

/-- The first half of `double_size`: allocate a zeroed slot table of
twice the size (`calloc`), keeping the old table aside for reinsertion. -/
def grown (sc : SmallCuckoo) : SmallCuckoo :=
  { sc with table_size := sc.table_size * 2
            table := List.replicate (sc.table_size * 2) 0 }

/-- The reinsertion sweep of `double_size`, parameterized by the insert
procedure `ins` used for each occupant: walk the old slot table (indices
`0 .. old_size - 1`, which is the whole old table) and insert every
nonzero occupant into the doubled table. -/
def reinsertAux (ins : SmallCuckoo → Nat → Option SmallCuckoo) :
    SmallCuckoo → List Nat → Option SmallCuckoo
  | sc, [] => some sc
  | sc, k :: ks =>
    if k = 0 then reinsertAux ins sc ks
    else
      match ins sc k with
      | none => none
      | some sc2 => reinsertAux ins sc2 ks

/-- The static `insert` of small-cuckoo.c with an explicit fuel bound on
the number of table doublings: run the 20-round eviction loop; on
failure call `double_size` (= `grown` plus the `reinsertAux` sweep over
the old table, whose own insertions draw on the remaining fuel) and
retry the displaced index from scratch.  `none` models either undefined
behaviour inside the loop or fuel exhaustion (the C recursion is
unbounded). -/
def insert_fuel : Nat → SmallCuckoo → Nat → Option SmallCuckoo
  | 0, sc, i =>
    match evict_loop 20 sc i with
    | none => none
    | some (sc1, i1) => if i1 = 0 then some sc1 else none
  | f + 1, sc, i =>
    match evict_loop 20 sc i with
    | none => none
    | some (sc1, i1) =>
      if i1 = 0 then some sc1
      else
        match reinsertAux (insert_fuel f) (grown sc1) sc1.table with
        | none => none
        | some sc2 => insert_fuel f sc2 i1

/-- The reinsertion sweep of `double_size` at a given fuel level. -/
def reinsert (f : Nat) : SmallCuckoo → List Nat → Option SmallCuckoo :=
  reinsertAux (insert_fuel f)

/-- A write `entries[i] = kv` into the entry store, acting on the
initialized prefix: an in-range write updates in place, the (only
reachable) one-past-the-end write extends the prefix. -/
def writeAt (l : List (Nat × Nat)) (i : Nat) (kv : Nat × Nat) :
    List (Nat × Nat) :=
  if i < l.length then l.set i kv else l ++ [kv]

/-- `small_cuckoo_insert`: reserve index `i = n_entries` (fatal if it is
0, i.e. the 16-bit counter has wrapped), bump the counter, double
`entries_len` when the count reaches it (the `uint16_t` doubling wraps;
when it wraps to 0 the `realloc(entries, 0)` returns NULL and the ENSURE
aborts, modelled as `none`), store the pair and place the new index. -/
def small_cuckoo_insert (fuel : Nat) (sc : SmallCuckoo) (key value : Nat) :
    Option SmallCuckoo :=
  let i := sc.n_entries
  if i = 0 then none
  else
    let n2 := (sc.n_entries + 1) % 65536
    let len2 := if sc.entries_len ≤ n2 then sc.entries_len * 2 % 65536 else sc.entries_len
    if sc.entries_len ≤ n2 ∧ len2 = 0 then none
    else
      insert_fuel fuel
        { sc with n_entries := n2, entries_len := len2,
                  entries := writeAt sc.entries i (key, value) } i

/-- A sequence of `small_cuckoo_insert` calls, each with the same
doubling budget. -/
def insertAll (fuel : Nat) (sc : SmallCuckoo) : List (Nat × Nat) → Option SmallCuckoo
  | [] => some sc
  | kv :: l =>
    match small_cuckoo_insert fuel sc kv.1 kv.2 with
    | none => none
    | some sc2 => insertAll fuel sc2 l

/-- `small_cuckoo_find`: probe the `hash_1` slot and then the `hash_2`
slot; a nonzero occupant whose entry's key matches yields its value.
Returns `some value` for the C `true` plus out-parameter, `none` for
`false`. -/
def small_cuckoo_find (sc : SmallCuckoo) (key : Nat) : Option Nat :=
  let i1 := sc.table.getD (hash_1 sc.table_size key) 0
  if i1 ≠ 0 ∧ (sc.entries.getD i1 (0, 0)).1 = key then
    some (sc.entries.getD i1 (0, 0)).2
  else
    let i2 := sc.table.getD (hash_2 sc.table_size key) 0
    if i2 ≠ 0 ∧ (sc.entries.getD i2 (0, 0)).1 = key then
      some (sc.entries.getD i2 (0, 0)).2
    else none

/-- The `w` little-endian bytes of `x` (only the low `8*w` bits of `x`
contribute). -/
def le_bytes (w x : Nat) : List Nat :=
  (List.range w).map fun j => x / 256 ^ j % 256

/-- One 8-byte field as `small_cuckoo_serialize` actually emits it: the
`WRITE_UNDER` macro stages the value in a `uint32_t u` and then writes 8
bytes starting at `&u`, so the first 4 bytes are the little-endian low
32 bits of the value and the trailing 4 bytes are whatever stack memory
follows `u` (undefined behaviour; made explicit as the parameter `g`). -/
def field8 (g x : Nat) : List Nat :=
  le_bytes 4 x ++ le_bytes 4 g

/-- `small_cuckoo_serialize`: the 2-byte little-endian entry count
followed by one key field and one value field for every entry index
`0 ≤ i < n_entries` — including the reserved entry 0 — in storage
order.  The slot table is never written. -/
def small_cuckoo_serialize (g : Nat) (sc : SmallCuckoo) : List Nat :=
  le_bytes 2 sc.n_entries ++
    ((List.range sc.n_entries).map fun i =>
      field8 g (sc.entries.getD i (0, 0)).1 ++ field8 g (sc.entries.getD i (0, 0)).2).flatten

/-- Little-endian read of `w` bytes at offset `pos` of a byte stream. -/
def readLE (s : List Nat) (pos w : Nat) : Nat :=
  ((List.range w).map fun j => s.getD (pos + j) 0 * 256 ^ j).sum

/-- The replay loop at the end of `small_cuckoo_deserialize`:
`for (i = 0; i < n_entries; ++i) insert(sc, i)` — note that it starts at
index 0, the sentinel. -/
def insertIndices (fuel : Nat) (sc : SmallCuckoo) : List Nat → Option SmallCuckoo
  | [] => some sc
  | i :: is =>
    match insert_fuel fuel sc i with
    | none => none
    | some sc2 => insertIndices fuel sc2 is

/-- `small_cuckoo_deserialize`: read the 2-byte count, size the slot
table as `1 << (ceil_pow2(n_entries)+1)`, `malloc` it — NOT `calloc`,
so its initial contents are uninitialized memory, made explicit as the
`junk` parameter — read the entries back (the `READ_AND` macro reads 8
bytes into a `uint32_t u`, so only the low 4 bytes of each 8-byte field
reach the parsed value), leave `entries_len` at 0, and replay
`insert(sc, i)` for every `0 ≤ i < n_entries`.  A stream shorter than
declared makes a `read` come up short and the ENSURE aborts (`none`). -/
def small_cuckoo_deserialize (fuel : Nat) (stream junk : List Nat) :
    Option SmallCuckoo :=
  if stream.length < 2 then none
  else
    let n := readLE stream 0 2
    if stream.length < 2 + 16 * n then none
    else
      let ts := 2 ^ (ceil_pow2 n + 1)
      insertIndices fuel
        { table_size := ts
          table := (junk ++ List.replicate ts 0).take ts
          n_entries := n
          entries_len := 0
          entries := (List.range n).map fun i =>
            (readLE stream (2 + 16 * i) 4, readLE stream (2 + 16 * i + 8) 4) }
        (List.range n)

/-- The `small_cuckoo_iter` structure: a table (by value, since the
iterator never mutates it) and a scan position. -/
structure SmallCuckooIter where
  sc : SmallCuckoo
  i : Nat
deriving DecidableEq

/-- `small_cuckoo_iterate`: fresh iterator at position 0. -/
def small_cuckoo_iterate (sc : SmallCuckoo) : SmallCuckooIter := ⟨sc, 0⟩

/-- The forward scan shared by `small_cuckoo_iter_has_next` and
`small_cuckoo_iter_next`, with the number of remaining slots as an
explicit structural bound. -/
def scanPosAux : Nat → SmallCuckoo → Nat → Nat
  | 0, _, i => i
  | n + 1, sc, i =>
    if i < sc.table_size then
      if sc.table.getD i 0 ≠ 0 then i else scanPosAux n sc (i + 1)
    else i

/-- The forward scan shared by `small_cuckoo_iter_has_next` and
`small_cuckoo_iter_next`: the first position `≥ i` holding a nonzero
slot, or `table_size` if none remains. -/
def scanPos (sc : SmallCuckoo) (i : Nat) : Nat :=
  scanPosAux (sc.table_size - i) sc i

/-- `small_cuckoo_iter_has_next`: scan forward (advancing the stored
position, as the C does through `iter->i`) and report whether an
occupied slot remains. -/
def small_cuckoo_iter_has_next (it : SmallCuckooIter) : Bool × SmallCuckooIter :=
  let j := scanPos it.sc it.i
  (decide (j < it.sc.table_size), ⟨it.sc, j⟩)

/-- `small_cuckoo_iter_next`: scan forward to the next occupied slot,
return its entry's pair and advance past it; advancing an exhausted
iterator hits `ENSURE(false)` (`none`). -/
def small_cuckoo_iter_next (it : SmallCuckooIter) :
    Option ((Nat × Nat) × SmallCuckooIter) :=
  let j := scanPos it.sc it.i
  if j < it.sc.table_size then
    some (it.sc.entries.getD (it.sc.table.getD j 0) (0, 0), ⟨it.sc, j + 1⟩)
  else none

/-- Driving an iterator to exhaustion with the standard client loop
`while (has_next(&it)) next(&it, &k, &v)`, fuel-bounded (each emitted
pair advances the cursor, so `table_size` fuel always suffices). -/
def iter_drain : Nat → SmallCuckooIter → List (Nat × Nat)
  | 0, _ => []
  | fuel + 1, it =>
    match small_cuckoo_iter_has_next it with
    | (false, _) => []
    | (true, it1) =>
      match small_cuckoo_iter_next it1 with
      | none => []
      | some (kv, it2) => kv :: iter_drain fuel it2

/-- The table produced by inserting the single pair (42, 100) into a
freshly constructed table (`small_cuckoo_new 0` with a zero sentinel):
`table_size = 2`, entry 1 = (42, 100) placed at its even slot 0. -/
def scSingle : SmallCuckoo := ⟨2, [1, 0], 2, 2, [(0, 0), (42, 100)]⟩

/-- The byte stream `small_cuckoo_serialize` emits for `scSingle` (with
all unspecified garbage bytes taken to be 0). -/
def streamSingle : List Nat := small_cuckoo_serialize 0 scSingle

/-- One possible content of the uninitialized `malloc`ed slot table in
`small_cuckoo_deserialize` for a count-2 stream (table size 8): residual
garbage `1` in slot 3, all other bytes zero. -/
def junkSlot3 : List Nat := [0, 0, 0, 1, 0, 0, 0, 0]

/-- The table produced by inserting the single pair (2^32 + 1, 5) into a
freshly constructed table. -/
def scT2 : SmallCuckoo := ⟨2, [1, 0], 2, 2, [(0, 0), (4294967297, 5)]⟩

/-- A table state reached after 32766 successful insertions into a table
constructed with hint 0: `n_entries = 32767` with `entries_len = 32768`
(the `uint16_t` capacity doubles 1, 2, 4, ..., 32768 as the count
grows).  Only `n_entries` and `entries_len` matter to the next
insertion's abort, so the other fields are kept small here. -/
def scNearCap : SmallCuckoo :=
  ⟨2, [0, 0], 32767, 32768, List.replicate 32767 (0, 0)⟩

/-- The state of the third insertion of the key sequence 1, 3, 6 (values
1, 2, 3) into a fresh table, just before the eviction loop runs for the
new entry index 3: keys 1 and 3 occupy both slots of the size-2 table
and (6, 3) has been appended to the entry store. -/
def scTriple : SmallCuckoo := ⟨2, [2, 1], 4, 8, [(0, 0), (1, 1), (3, 2), (6, 3)]⟩

/-- The state `evict_loop 20 scTriple 3` ends in: the 20 rounds shuffle
indices 1, 2, 3 around the two slots and finish with index 2 still in
hand. -/
def scTriple1 : SmallCuckoo := ⟨2, [1, 3], 4, 8, [(0, 0), (1, 1), (3, 2), (6, 3)]⟩

/-- The state after `double_size` rebuilds `scTriple1` at size 4:
occupants 1 and 3 reinserted into the doubled table. -/
def scQuad : SmallCuckoo := ⟨4, [3, 1, 0, 0], 4, 8, [(0, 0), (1, 1), (3, 2), (6, 3)]⟩

/-- The table produced by inserting (1, 10) then (2, 20) into a freshly
constructed table with hint 0 and a zero sentinel. -/
def scW : SmallCuckoo := ⟨2, [2, 1], 3, 4, [(0, 0), (1, 10), (2, 20)]⟩

/-- The table produced by inserting (5, 10) into a freshly constructed
table with hint 0 and a zero sentinel. -/
def scD1 : SmallCuckoo := ⟨2, [1, 0], 2, 2, [(0, 0), (5, 10)]⟩

/-- The table produced by inserting the same key 5 again (value 20) into
`scD1`: a second live entry with key 5 is appended, not an update. -/
def scD2 : SmallCuckoo := ⟨2, [2, 1], 3, 4, [(0, 0), (5, 10), (5, 20)]⟩

/-- The key stored at entry index `j` (default `(0,0)` out of range; the
invariants below guarantee in-range use). -/
def keyOf (sc : SmallCuckoo) (j : Nat) : Nat := (sc.entries.getD j (0, 0)).1

/-- The even-parity candidate slot of entry `j`. -/
def slot1 (sc : SmallCuckoo) (j : Nat) : Nat := hash_1 sc.table_size (keyOf sc j)

/-- The odd-parity candidate slot of entry `j`. -/
def slot2 (sc : SmallCuckoo) (j : Nat) : Nat := hash_2 sc.table_size (keyOf sc j)

/-- Entry index `j` occupies (at least) one of its two candidate slots. -/
def placed (sc : SmallCuckoo) (j : Nat) : Prop :=
  sc.table.getD (slot1 sc j) 0 = j ∨ sc.table.getD (slot2 sc j) 0 = j

/-- Slot `h` is empty, or holds a valid entry index whose key hashes to
`h` under the hash selector matching the slot's parity. -/
def slotOK (sc : SmallCuckoo) (h : Nat) : Prop :=
  sc.table.getD h 0 = 0 ∨
    (sc.table.getD h 0 < sc.entries.length ∧
      (h % 2 = 0 → slot1 sc (sc.table.getD h 0) = h) ∧
      (h % 2 = 1 → slot2 sc (sc.table.getD h 0) = h))

/-- Structural well-formedness of the slot table: its length is
`table_size`, the size is a power of two ≥ 2, and every slot satisfies
`slotOK`. -/
def WFslots (sc : SmallCuckoo) : Prop :=
  sc.table.length = sc.table_size ∧
  (∃ m, 1 ≤ m ∧ sc.table_size = 2 ^ m) ∧
  ∀ h, h < sc.table_size → slotOK sc h

/-- No nonzero entry index occupies two distinct slots. -/
def TableOnce (sc : SmallCuckoo) : Prop :=
  ∀ j, j ≠ 0 → sc.table.count j ≤ 1

/-- Index `j` occurs nowhere in the slot table. -/
def NotInTable (sc : SmallCuckoo) (j : Nat) : Prop := sc.table.count j = 0

/-- Every member of `S` other than the in-hand index `i` is placed. -/
def Covers (sc : SmallCuckoo) (S : Nat → Prop) (i : Nat) : Prop :=
  ∀ j, S j → j ≠ 0 → j = i ∨ placed sc j

/-- Every live entry index (1 .. entries.length - 1) is placed. -/
def allPlaced (sc : SmallCuckoo) : Prop :=
  ∀ j, 1 ≤ j → j < sc.entries.length → placed sc j

/-- Invariant of every table reachable by construction and insertion:
well-formed slots, no duplicated slot occupants, every live entry
findable through one of its two slots, and the entry counter in step
with the entry store (the counter wraps to 0 on the 65536th entry). -/
def WF (sc : SmallCuckoo) : Prop :=
  WFslots sc ∧ TableOnce sc ∧ allPlaced sc ∧ 1 ≤ sc.entries.length ∧
  ((sc.n_entries = sc.entries.length ∧ sc.entries.length ≤ 65535) ∨
    (sc.n_entries = 0 ∧ sc.entries.length = 65536))

/-- A hash selector suitable for a slot table of power-of-two size ≥ 2:
in range, and agreeing with the selector of its output's parity. -/
def GoodHash (f : Nat → Nat → Nat) : Prop :=
  ∀ n k, 2 ≤ n → (∃ m, 1 ≤ m ∧ n = 2 ^ m) →
    f n k < n ∧
      ((f n k % 2 = 0 ∧ hash_1 n k = f n k) ∨ (f n k % 2 = 1 ∧ hash_2 n k = f n k))

/-- Specification of `insert_fuel` at a given fuel level: placing a
fresh, in-range, not-yet-stored index into a well-formed table preserves
the invariants, leaves the entry store alone, can only grow the slot
table, and ends with the new index and everything in `S` placed. -/
def InsertStmt (fuel : Nat) : Prop :=
  ∀ (S : Nat → Prop) (sc : SmallCuckoo) (i : Nat) (sc' : SmallCuckoo),
    WFslots sc → TableOnce sc → i ≠ 0 → i < sc.entries.length →
    NotInTable sc i → Covers sc S i →
    insert_fuel fuel sc i = some sc' →
    sc'.entries = sc.entries ∧ sc'.n_entries = sc.n_entries ∧
    sc'.entries_len = sc.entries_len ∧ sc.table_size ≤ sc'.table_size ∧
    WFslots sc' ∧ TableOnce sc' ∧
    (∀ x, x ≠ 0 → (S x ∨ x = i) → placed sc' x) ∧
    (∀ x, x ≠ 0 → NotInTable sc x → x ≠ i → NotInTable sc' x)

/-- Specification of the `double_size` reinsertion sweep at a given fuel
level: replaying a duplicate-free list of valid, not-yet-stored indices
preserves the invariants and ends with every replayed index placed and
every previously placed index still placed. -/
def ReinsertStmt (fuel : Nat) : Prop :=
  ∀ (ks : List Nat) (sc : SmallCuckoo) (sc' : SmallCuckoo),
    WFslots sc → TableOnce sc →
    (∀ k, k ∈ ks → k ≠ 0 → k < sc.entries.length) →
    (∀ k, k ∈ ks → k ≠ 0 → NotInTable sc k) →
    (∀ k, k ≠ 0 → ks.count k ≤ 1) →
    reinsertAux (insert_fuel fuel) sc ks = some sc' →
    sc'.entries = sc.entries ∧ sc'.n_entries = sc.n_entries ∧
    sc'.entries_len = sc.entries_len ∧ sc.table_size ≤ sc'.table_size ∧
    WFslots sc' ∧ TableOnce sc' ∧
    (∀ x, x ≠ 0 → (placed sc x ∨ x ∈ ks) → placed sc' x) ∧
    (∀ x, x ≠ 0 → NotInTable sc x → x ∉ ks → NotInTable sc' x)

lemma getD_set_self (l : List Nat) (h x : Nat) (hl : h < l.length) :
    (l.set h x).getD h 0 = x := by
  simp [List.getD_eq_getD_get?, List.get?_eq_getElem?, List.getElem?_set_eq_of_lt x hl]

lemma getD_set_ne (l : List Nat) (h h' x : Nat) (hne : h ≠ h') :
    (l.set h x).getD h' 0 = l.getD h' 0 := by
  simp [List.getD_eq_getD_get?, List.get?_eq_getElem?, List.getElem?_set_ne hne]

lemma getD_lt_length_of_ne (l : List Nat) (h : Nat) (hne : l.getD h 0 ≠ 0) :
    h < l.length := by
  by_contra hc
  exact hne (List.getD_eq_default _ _ (by omega))

lemma count_set_add (l : List Nat) (n x a : Nat) (hl : n < l.length) :
    (l.set n x).count a + (if l[n] = a then 1 else 0) =
      l.count a + (if x = a then 1 else 0) := by
  induction l generalizing n with
  | nil => simp at hl
  | cons b t ih =>
    cases n with
    | zero => simp [List.count_cons]; omega
    | succ m =>
      have hm : m < t.length := by simpa using hl
      have := ih m hm
      simp only [List.set, List.count_cons, List.getElem_cons_succ]
      omega

lemma getD_mem_of_ne (l : List Nat) (h : Nat) (hne : l.getD h 0 ≠ 0) :
    l.getD h 0 ∈ l := by
  have hl : h < l.length := getD_lt_length_of_ne l h hne
  rw [List.getD_eq_getElem _ _ hl]
  exact List.getElem_mem hl

lemma count_pos_of_getD (l : List Nat) (h : Nat) (hne : l.getD h 0 ≠ 0) :
    1 ≤ l.count (l.getD h 0) :=
  List.one_le_count_iff.2 (getD_mem_of_ne l h hne)

lemma larsons_hash_lt (k : Nat) : larsons_hash k < 65536 :=
  Nat.mod_lt _ (by norm_num)

lemma hash_1_even (n k : Nat) : hash_1 n k % 2 = 0 := by
  unfold hash_1
  rw [Nat.mod_mod_of_dvd _ (by norm_num)]
  omega

lemma hash_2_odd (n k : Nat) : hash_2 n k % 2 = 1 := by
  unfold hash_2
  rw [Nat.mod_mod_of_dvd _ (by norm_num)]
  omega

lemma pow_two_even (m : Nat) (hm : 1 ≤ m) : 2 * (2 ^ m / 2) = 2 ^ m := by
  have : (2 : Nat) ∣ 2 ^ m := dvd_pow_self 2 (by omega)
  exact Nat.mul_div_cancel' this

lemma hash_1_lt (n k : Nat) (hn : 2 ≤ n) (hp : ∃ m, 1 ≤ m ∧ n = 2 ^ m) :
    hash_1 n k < n := by
  obtain ⟨m, hm, rfl⟩ := hp
  have heven := pow_two_even m hm
  by_cases hle : 2 ^ m ≤ 65536
  · have hband : Nat.land (larsons_hash k) (2 ^ m / 2 - 1) ≤ 2 ^ m / 2 - 1 :=
      Nat.and_le_right
    have h2 : Nat.land (larsons_hash k) (2 ^ m / 2 - 1) * 2 ≤ 2 ^ m - 2 := by omega
    unfold hash_1
    rw [Nat.mod_eq_of_lt (by omega)]
    omega
  · have : hash_1 (2 ^ m) k < 65536 := Nat.mod_lt _ (by norm_num)
    omega

lemma hash_2_lt (n k : Nat) (hn : 2 ≤ n) (hp : ∃ m, 1 ≤ m ∧ n = 2 ^ m) :
    hash_2 n k < n := by
  obtain ⟨m, hm, rfl⟩ := hp
  have heven := pow_two_even m hm
  by_cases hle : 2 ^ m ≤ 65536
  · have hband : Nat.land
        (Nat.xor (hashword_2w (k % 4294967296) (k / 4294967296 % 4294967296))
          (hashword_2w (k % 4294967296) (k / 4294967296 % 4294967296) / 65536))
        (2 ^ m / 2 - 1) ≤ 2 ^ m / 2 - 1 :=
      Nat.and_le_right
    unfold hash_2
    rw [Nat.mod_eq_of_lt (by omega)]
    omega
  · have : hash_2 (2 ^ m) k < 65536 := Nat.mod_lt _ (by norm_num)
    omega

lemma goodHash_1 : GoodHash hash_1 := by
  intro n k hn hp
  exact ⟨hash_1_lt n k hn hp, Or.inl ⟨hash_1_even n k, rfl⟩⟩

lemma goodHash_2 : GoodHash hash_2 := by
  intro n k hn hp
  exact ⟨hash_2_lt n k hn hp, Or.inr ⟨hash_2_odd n k, rfl⟩⟩

lemma ts_ge_two (sc : SmallCuckoo) (hW : WFslots sc) : 2 ≤ sc.table_size := by
  obtain ⟨-, ⟨m, hm, hts⟩, -⟩ := hW
  calc 2 = 2 ^ 1 := by norm_num
  _ ≤ 2 ^ m := Nat.pow_le_pow_right (by norm_num) hm
  _ = sc.table_size := hts.symm

lemma evict_step_eq (f : Nat → Nat → Nat) (sc : SmallCuckoo) (i : Nat)
    (hi : i < sc.entries.length) :
    evict_step f sc i =
      some ({ sc with table := sc.table.set (f sc.table_size (keyOf sc i)) i },
            sc.table.getD (f sc.table_size (keyOf sc i)) 0) := by
  unfold evict_step
  rw [List.get?_eq_get hi]
  simp only [keyOf, List.getD_eq_getElem sc.entries (0, 0) hi]
  rfl


lemma step_inv (f : Nat → Nat → Nat) (hf : GoodHash f) (S : Nat → Prop)
    (sc : SmallCuckoo) (i : Nat)
    (hW : WFslots sc) (hO : TableOnce sc)
    (hi0 : i ≠ 0) (hilen : i < sc.entries.length) (hni : NotInTable sc i)
    (hC : Covers sc S i) (sc' : SmallCuckoo) (j : Nat)
    (hs : evict_step f sc i = some (sc', j)) :
    sc'.entries = sc.entries ∧ sc'.table_size = sc.table_size ∧
    sc'.n_entries = sc.n_entries ∧ sc'.entries_len = sc.entries_len ∧
    WFslots sc' ∧ TableOnce sc' ∧
    (∀ x, x ≠ 0 → NotInTable sc x → x ≠ i → NotInTable sc' x) ∧
    placed sc' i ∧
    Covers sc' (fun x => S x ∨ x = i) j ∧
    (j ≠ 0 → j < sc.entries.length ∧ NotInTable sc' j ∧ 1 ≤ sc.table.count j) := by
  rw [evict_step_eq f sc i hilen] at hs
  obtain ⟨hsc', hj⟩ : ({ sc with table := sc.table.set (f sc.table_size (keyOf sc i)) i } = sc') ∧
      (sc.table.getD (f sc.table_size (keyOf sc i)) 0 = j) := by
    have := Option.some.inj hs
    exact ⟨congrArg Prod.fst this, congrArg Prod.snd this⟩
  subst hsc' hj
  set h := f sc.table_size (keyOf sc i) with hh_def
  obtain ⟨hlen, hpow, hslots⟩ := hW
  have hn2 : 2 ≤ sc.table_size := ts_ge_two sc ⟨hlen, hpow, hslots⟩
  have hfr := hf sc.table_size (keyOf sc i) hn2 hpow
  have hhlt : h < sc.table_size := hfr.1
  have hhtab : h < sc.table.length := by omega
  have htab_h : sc.table[h] = sc.table.getD h 0 := (List.getD_eq_getElem _ _ hhtab).symm
  have hcount := fun a => count_set_add sc.table h i a hhtab
  have hsets : ({ sc with table := sc.table.set h i } : SmallCuckoo).table.getD h 0 = i :=
    getD_set_self sc.table h i hhtab
  have hplaced_i : placed { sc with table := sc.table.set h i } i := by
    rcases hfr.2 with ⟨-, hsel⟩ | ⟨-, hsel⟩
    · left
      have hsl : slot1 { sc with table := sc.table.set h i } i = h := by
        simp only [slot1, keyOf]; exact hsel
      rw [hsl]; exact hsets
    · right
      have hsl : slot2 { sc with table := sc.table.set h i } i = h := by
        simp only [slot2, keyOf]; exact hsel
      rw [hsl]; exact hsets
  refine ⟨rfl, rfl, rfl, rfl, ?_, ?_, ?_, hplaced_i, ?_, ?_⟩
  · -- WFslots
    refine ⟨by simpa using hlen, hpow, ?_⟩
    intro q hq
    by_cases hcase : q = h
    · subst hcase
      right
      rw [show ({ sc with table := sc.table.set h i } : SmallCuckoo).table.getD h 0 =
            i from getD_set_self sc.table h i hhtab]
      refine ⟨hilen, ?_, ?_⟩
      · intro hpar
        rcases hfr.2 with ⟨-, hsel⟩ | ⟨hodd, -⟩
        · exact hsel
        · omega
      · intro hpar
        rcases hfr.2 with ⟨heven, -⟩ | ⟨-, hsel⟩
        · omega
        · exact hsel
    · have hget : ({ sc with table := sc.table.set h i } : SmallCuckoo).table.getD q 0 =
          sc.table.getD q 0 := getD_set_ne sc.table h q i (fun he => hcase he.symm)
      rcases hslots q hq with hempty | ⟨hb, hsel1, hsel2⟩
      · left; rw [hget, hempty]
      · right
        rw [hget]
        exact ⟨hb, hsel1, hsel2⟩
  · -- TableOnce
    intro x hx
    show (sc.table.set h i).count x ≤ 1
    have hcx := hcount x
    have hif : (if sc.table[h] = x then 1 else 0) ≤ 1 := by split <;> omega
    by_cases hxi : x = i
    · subst hxi
      have h0 : sc.table.count x = 0 := hni
      rw [if_pos rfl] at hcx
      omega
    · have h1 : sc.table.count x ≤ 1 := hO x hx
      have h2 : (if i = x then 1 else 0) = 0 := if_neg (fun he => hxi he.symm)
      omega
  · -- persistence of NotInTable
    intro x hx hnx hxi
    show (sc.table.set h i).count x = 0
    have hcx := hcount x
    have h0 : sc.table.count x = 0 := hnx
    have h2 : (if i = x then 1 else 0) = 0 := if_neg (fun he => hxi he.symm)
    have hif : (if sc.table[h] = x then 1 else 0) ≤ 1 := by split <;> omega
    omega
  · -- Covers (S ∪ {i}) with new in-hand j
    intro x hxS hx0
    by_cases hxj : x = sc.table.getD h 0
    · exact Or.inl hxj
    have hx_pl : x = i → placed { sc with table := sc.table.set h i } x := by
      intro he; subst he; exact hplaced_i
    rcases hxS with hxS | hxi
    swap
    · exact Or.inr (hx_pl hxi)
    · rcases hC x hxS hx0 with hxi | hplaced
      · exact Or.inr (hx_pl hxi)
      · right
        have hs1 : slot1 { sc with table := sc.table.set h i } x = slot1 sc x := rfl
        have hs2 : slot2 { sc with table := sc.table.set h i } x = slot2 sc x := rfl
        rcases hplaced with hp | hp
        · by_cases hsh : slot1 sc x = h
          · exfalso
            rw [hsh] at hp
            exact hxj hp.symm
          · left
            rw [hs1, getD_set_ne sc.table h (slot1 sc x) i (fun he => hsh he.symm)]
            exact hp
        · by_cases hsh : slot2 sc x = h
          · exfalso
            rw [hsh] at hp
            exact hxj hp.symm
          · right
            rw [hs2, getD_set_ne sc.table h (slot2 sc x) i (fun he => hsh he.symm)]
            exact hp
  · -- facts about the evicted occupant j
    intro hj0
    have hpos : 1 ≤ sc.table.count (sc.table.getD h 0) := count_pos_of_getD sc.table h hj0
    rcases hslots h hhlt with hempty | ⟨hb, -, -⟩
    · exact absurd hempty hj0
    · refine ⟨hb, ?_, hpos⟩
      have hji : sc.table.getD h 0 ≠ i := by
        intro he
        rw [he] at hpos
        have h0 : sc.table.count i = 0 := hni
        omega
      show (sc.table.set h i).count (sc.table.getD h 0) = 0
      have hcx := hcount (sc.table.getD h 0)
      have hone := hO (sc.table.getD h 0) hj0
      rw [if_pos htab_h, if_neg (fun he => hji he.symm)] at hcx
      omega

lemma evict_loop_inv (n : Nat) :
    ∀ (S : Nat → Prop) (sc : SmallCuckoo) (i : Nat) (sc' : SmallCuckoo) (i' : Nat),
    WFslots sc → TableOnce sc → i ≠ 0 → i < sc.entries.length →
    NotInTable sc i → Covers sc S i →
    evict_loop n sc i = some (sc', i') →
    sc'.entries = sc.entries ∧ sc'.table_size = sc.table_size ∧
    sc'.n_entries = sc.n_entries ∧ sc'.entries_len = sc.entries_len ∧
    WFslots sc' ∧ TableOnce sc' ∧
    (∀ x, x ≠ 0 → NotInTable sc x → x ≠ i → NotInTable sc' x) ∧
    Covers sc' (fun x => S x ∨ x = i) i' ∧
    (i' ≠ 0 → i' < sc.entries.length ∧ NotInTable sc' i' ∧
      (i' = i ∨ 1 ≤ sc.table.count i')) := by
  induction n with
  | zero =>
    intro S sc i sc' i' hW hO hi0 hilen hni hC hs
    obtain ⟨hsc, hi⟩ : sc = sc' ∧ i = i' := by
      have := Option.some.inj hs
      exact ⟨congrArg Prod.fst this, congrArg Prod.snd this⟩
    subst hsc hi
    refine ⟨rfl, rfl, rfl, rfl, hW, hO, fun x _ hx _ => hx, ?_, fun _ => ⟨hilen, hni, Or.inl rfl⟩⟩
    intro x hxS hx0
    rcases hxS with hxS | hxi
    · exact hC x hxS hx0
    · exact Or.inl hxi
  | succ n IH =>
    intro S sc i sc' i' hW hO hi0 hilen hni hC hs
    unfold evict_loop at hs
    rw [evict_step_eq hash_1 sc i hilen] at hs
    set sc1 : SmallCuckoo :=
      { sc with table := sc.table.set (hash_1 sc.table_size (keyOf sc i)) i } with hsc1_def
    set i1 := sc.table.getD (hash_1 sc.table_size (keyOf sc i)) 0 with hi1_def
    have hstep1 := step_inv hash_1 goodHash_1 S sc i hW hO hi0 hilen hni hC sc1 i1
      (by rw [evict_step_eq hash_1 sc i hilen])
    obtain ⟨he1, ht1, hn1, hl1, hW1, hO1, hpers1, hpl1, hCov1, hj1⟩ := hstep1
    dsimp only at hs
    by_cases hi1z : i1 = 0
    · rw [if_pos hi1z] at hs
      obtain ⟨hsc, hi⟩ : sc1 = sc' ∧ 0 = i' := by
        have := Option.some.inj hs
        exact ⟨congrArg Prod.fst this, congrArg Prod.snd this⟩
      subst hsc
      refine ⟨he1, ht1, hn1, hl1, hW1, hO1, hpers1, ?_, fun hne => absurd hi.symm hne⟩
      rw [← hi, ← hi1z]
      exact hCov1
    · rw [if_neg hi1z] at hs
      obtain ⟨hb1, hni1, horig1⟩ := hj1 hi1z
      have hi1len : i1 < sc1.entries.length := by rw [he1]; exact hb1
      rw [evict_step_eq hash_2 sc1 i1 hi1len] at hs
      set sc2 : SmallCuckoo :=
        { sc1 with table := sc1.table.set (hash_2 sc1.table_size (keyOf sc1 i1)) i1 } with hsc2_def
      set i2 := sc1.table.getD (hash_2 sc1.table_size (keyOf sc1 i1)) 0 with hi2_def
      have hstep2 := step_inv hash_2 goodHash_2 (fun x => S x ∨ x = i) sc1 i1 hW1 hO1 hi1z
        hi1len hni1 hCov1 sc2 i2 (by rw [evict_step_eq hash_2 sc1 i1 hi1len])
      obtain ⟨he2, ht2, hn2, hl2, hW2, hO2, hpers2, hpl2, hCov2, hj2⟩ := hstep2
      dsimp only at hs
      have hcomp_pers : ∀ x, x ≠ 0 → NotInTable sc x → x ≠ i → NotInTable sc2 x := by
        intro x hx0 hnx hxi
        have hx1 : NotInTable sc1 x := hpers1 x hx0 hnx hxi
        have hxi1 : x ≠ i1 := by
          intro he
          have hnx2 : sc.table.count x = 0 := hnx
          rw [he] at hnx2
          omega
        exact hpers2 x hx0 hx1 hxi1
      by_cases hi2z : i2 = 0
      · rw [if_pos hi2z] at hs
        obtain ⟨hsc, hi⟩ : sc2 = sc' ∧ 0 = i' := by
          have := Option.some.inj hs
          exact ⟨congrArg Prod.fst this, congrArg Prod.snd this⟩
        subst hsc
        refine ⟨he2.trans he1, ht2.trans ht1, hn2.trans hn1, hl2.trans hl1, hW2, hO2,
          hcomp_pers, ?_, fun hne => absurd hi.symm hne⟩
        rw [← hi]
        intro x hxS hx0
        rcases hCov2 x (Or.inl hxS) hx0 with hxi2 | hplx
        · rw [← hi2z]
          exact Or.inl hxi2
        · exact Or.inr hplx
      · rw [if_neg hi2z] at hs
        obtain ⟨hb2, hni2, horig2⟩ := hj2 hi2z
        have hi2len : i2 < sc2.entries.length := by rw [he2]; exact hb2
        have hrec := IH (fun x => (S x ∨ x = i) ∨ x = i1) sc2 i2 sc' i' hW2 hO2 hi2z hi2len
          hni2 hCov2 hs
        obtain ⟨heR, htR, hnR, hlR, hWR, hOR, hpersR, hCovR, hjR⟩ := hrec
        have hents : sc'.entries = sc.entries := heR.trans (he2.trans he1)
        refine ⟨hents, htR.trans (ht2.trans ht1), hnR.trans (hn2.trans hn1),
          hlR.trans (hl2.trans hl1), hWR, hOR, ?_, ?_, ?_⟩
        · -- persistence composed with the recursive call
          intro x hx0 hnx hxi
          have hx2 : NotInTable sc2 x := hcomp_pers x hx0 hnx hxi
          have hxi2 : x ≠ i2 := by
            intro he
            have hx1 : sc1.table.count x = 0 := hpers1 x hx0 hnx hxi
            rw [he] at hx1
            omega
          exact hpersR x hx0 hx2 hxi2
        · -- Covers, weakened back to S ∪ {i}
          intro x hxS hx0
          rcases hCovR x (Or.inl (Or.inl hxS)) hx0 with hxi' | hplx
          · exact Or.inl hxi'
          · exact Or.inr hplx
        · -- origin of the final in-hand index
          intro hne
          obtain ⟨hblt, hnit, horigR⟩ := hjR hne
          have up1 : ∀ y, y ≠ 0 → 1 ≤ sc1.table.count y →
              (y = i ∨ 1 ≤ sc.table.count y) := by
            intro y hy0 hy1
            by_cases hyi : y = i
            · exact Or.inl hyi
            · right
              by_cases hc : sc.table.count y = 0
              · have := hpers1 y hy0 hc hyi
                unfold NotInTable at this
                omega
              · omega
          have up2 : ∀ y, y ≠ 0 → 1 ≤ sc2.table.count y →
              (y = i1 ∨ 1 ≤ sc1.table.count y) := by
            intro y hy0 hy1
            by_cases hyi : y = i1
            · exact Or.inl hyi
            · right
              by_cases hc : sc1.table.count y = 0
              · have := hpers2 y hy0 hc hyi
                unfold NotInTable at this
                omega
              · omega
          have O2 : i2 = i ∨ 1 ≤ sc.table.count i2 := up1 i2 hi2z horig2
          refine ⟨by rw [he2, he1] at hblt; exact hblt, hnit, ?_⟩
          rcases horigR with hR | hcnt
          · rw [hR]; exact O2
          · rcases up2 i' hne hcnt with h1 | hcnt1
            · rw [h1]; exact Or.inr horig1
            · exact up1 i' hne hcnt1

lemma reinsertAux_cons (ins : SmallCuckoo → Nat → Option SmallCuckoo)
    (sc : SmallCuckoo) (k : Nat) (ks : List Nat) :
    reinsertAux ins sc (k :: ks) =
      if k = 0 then reinsertAux ins sc ks
      else
        match ins sc k with
        | none => none
        | some sc2 => reinsertAux ins sc2 ks := rfl

lemma insert_fuel_zero_eq (sc : SmallCuckoo) (i : Nat) :
    insert_fuel 0 sc i =
      match evict_loop 20 sc i with
      | none => none
      | some (sc1, i1) => if i1 = 0 then some sc1 else none := rfl

lemma insert_fuel_succ_eq (f : Nat) (sc : SmallCuckoo) (i : Nat) :
    insert_fuel (f + 1) sc i =
      match evict_loop 20 sc i with
      | none => none
      | some (sc1, i1) =>
        if i1 = 0 then some sc1
        else
          match reinsertAux (insert_fuel f) (grown sc1) sc1.table with
          | none => none
          | some sc2 => insert_fuel f sc2 i1 := rfl

lemma getD_replicate_zero (n h : Nat) : (List.replicate n (0 : Nat)).getD h 0 = 0 := by
  by_cases hlt : h < n
  · rw [List.getD_eq_getElem _ _ (by simpa using hlt)]
    simp
  · exact List.getD_eq_default _ _ (by simpa using hlt)

lemma mem_table_bound (sc : SmallCuckoo) (hW : WFslots sc) :
    ∀ k, k ∈ sc.table → k ≠ 0 → k < sc.entries.length := by
  intro k hk hk0
  obtain ⟨hlen, -, hslots⟩ := hW
  obtain ⟨idx, hidx, hg⟩ : ∃ (idx : Nat) (hidx : idx < sc.table.length), sc.table[idx] = k := by
    obtain ⟨⟨idx, hidx⟩, hg⟩ := List.mem_iff_get.1 hk
    exact ⟨idx, hidx, hg⟩
  have hgd : sc.table.getD idx 0 = k := by
    rw [List.getD_eq_getElem _ _ hidx]; exact hg
  rcases hslots idx (by omega) with hempty | ⟨hb, -, -⟩
  · rw [hgd] at hempty; exact absurd hempty hk0
  · rw [hgd] at hb; exact hb

lemma placed_mem (sc : SmallCuckoo) (x : Nat) (hx0 : x ≠ 0) (hp : placed sc x) :
    x ∈ sc.table := by
  rcases hp with hp | hp
  · rw [← hp]
    exact getD_mem_of_ne sc.table (slot1 sc x) (by rw [hp]; exact hx0)
  · rw [← hp]
    exact getD_mem_of_ne sc.table (slot2 sc x) (by rw [hp]; exact hx0)

lemma grown_WFslots (sc : SmallCuckoo) (hW : WFslots sc) : WFslots (grown sc) := by
  obtain ⟨hlen, ⟨m, hm, hts⟩, -⟩ := hW
  refine ⟨by simp [grown], ⟨m + 1, by omega, by rw [show (grown sc).table_size =
    sc.table_size * 2 from rfl, hts, pow_succ]⟩, ?_⟩
  intro h hh
  left
  exact getD_replicate_zero _ _

lemma grown_TableOnce (sc : SmallCuckoo) : TableOnce (grown sc) := by
  intro j hj
  show (List.replicate (sc.table_size * 2) 0).count j ≤ 1
  have h0 : (List.replicate (sc.table_size * 2) 0).count j = 0 :=
    List.count_eq_zero.2 fun hmem => hj (List.eq_of_mem_replicate hmem)
  omega

lemma grown_NotInTable (sc : SmallCuckoo) (j : Nat) (hj : j ≠ 0) :
    NotInTable (grown sc) j := by
  show (List.replicate (sc.table_size * 2) 0).count j = 0
  exact List.count_eq_zero.2 fun hmem => hj (List.eq_of_mem_replicate hmem)

lemma reinsert_of_insert (fuel : Nat) (hIns : InsertStmt fuel) : ReinsertStmt fuel := by
  intro ks
  induction ks with
  | nil =>
    intro sc sc' hW hO hbnd hnit hcnt hre
    obtain rfl : sc = sc' := Option.some.inj hre
    exact ⟨rfl, rfl, rfl, le_refl _, hW, hO,
      fun x hx0 hpl => hpl.elim id (fun hmem => absurd hmem (List.not_mem_nil x)),
      fun x _ hnx _ => hnx⟩
  | cons k ks IH =>
    intro sc sc' hW hO hbnd hnit hcnt hre
    by_cases hk0 : k = 0
    · subst hk0
      rw [reinsertAux_cons, if_pos rfl] at hre
      have hrec := IH sc sc' hW hO (fun k2 hk2 => hbnd k2 (List.mem_cons_of_mem _ hk2))
        (fun k2 hk2 => hnit k2 (List.mem_cons_of_mem _ hk2))
        (fun k2 hk2 => le_trans (by rw [List.count_cons]; omega) (hcnt k2 hk2)) hre
      obtain ⟨hE, hN, hL, hT, hWr, hOr, hplr, hper⟩ := hrec
      refine ⟨hE, hN, hL, hT, hWr, hOr, ?_, ?_⟩
      · intro x hx0 hx
        refine hplr x hx0 (hx.elim Or.inl (fun hmem => Or.inr ?_))
        rcases List.mem_cons.1 hmem with he | hmem2
        · exact absurd he hx0
        · exact hmem2
      · intro x hx0 hnx hmem
        exact hper x hx0 hnx (fun hmem2 => hmem (List.mem_cons_of_mem _ hmem2))
    · rw [reinsertAux_cons, if_neg hk0] at hre
      cases hins : insert_fuel fuel sc k with
      | none => rw [hins] at hre; exact absurd hre (by simp)
      | some sc2 =>
        rw [hins] at hre
        dsimp only at hre
        have hkmem : k ∈ k :: ks := List.mem_cons_self k ks
        have hstep := hIns (fun x => placed sc x) sc k sc2 hW hO hk0
          (hbnd k hkmem hk0) (hnit k hkmem hk0)
          (fun j _ _ => Or.inr (by assumption)) hins
        obtain ⟨hE2, hN2, hL2, hT2, hW2, hO2, hpl2, hper2⟩ := hstep
        have hknotks : k ∉ ks := by
          have hc := hcnt k hk0
          rw [List.count_cons_self] at hc
          exact List.count_eq_zero.1 (by omega)
        have hrec := IH sc2 sc' hW2 hO2
          (fun k2 hk2 hk20 => by
            rw [hE2]; exact hbnd k2 (List.mem_cons_of_mem _ hk2) hk20)
          (fun k2 hk2 hk20 => by
            refine hper2 k2 hk20 (hnit k2 (List.mem_cons_of_mem _ hk2) hk20) ?_
            intro he; rw [he] at hk2; exact hknotks hk2)
          (fun k2 hk2 => le_trans (by rw [List.count_cons]; omega) (hcnt k2 hk2)) hre
        obtain ⟨hE, hN, hL, hT, hWr, hOr, hplr, hper⟩ := hrec
        refine ⟨hE.trans hE2, hN.trans hN2, hL.trans hL2, le_trans hT2 hT, hWr, hOr, ?_, ?_⟩
        · intro x hx0 hx
          rcases hx with hpl | hmem
          · exact hplr x hx0 (Or.inl (hpl2 x hx0 (Or.inl hpl)))
          · rcases List.mem_cons.1 hmem with he | hmem2
            · exact hplr x hx0 (Or.inl (hpl2 x hx0 (Or.inr he)))
            · exact hplr x hx0 (Or.inr hmem2)
        · intro x hx0 hnx hmem
          have hxk : x ≠ k := fun he => hmem (he ▸ hkmem)
          exact hper x hx0 (hper2 x hx0 hnx hxk)
            (fun hmem2 => hmem (List.mem_cons_of_mem _ hmem2))

lemma insert_ok_all : ∀ fuel, InsertStmt fuel := by
  intro fuel
  induction fuel with
  | zero =>
    intro S sc i sc' hW hO hi0 hilen hni hC hins
    rw [insert_fuel_zero_eq] at hins
    cases hloop : evict_loop 20 sc i with
    | none => rw [hloop] at hins; exact absurd hins (by simp)
    | some p =>
      obtain ⟨sc1, i1⟩ := p
      rw [hloop] at hins
      dsimp only at hins
      have hl := evict_loop_inv 20 S sc i sc1 i1 hW hO hi0 hilen hni hC hloop
      obtain ⟨he1, ht1, hn1, hl1, hW1, hO1, hpers1, hCov1, hj1⟩ := hl
      by_cases hi1z : i1 = 0
      · rw [if_pos hi1z] at hins
        obtain rfl : sc1 = sc' := Option.some.inj hins
        refine ⟨he1, hn1, hl1, le_of_eq ht1.symm, hW1, hO1, ?_, hpers1⟩
        intro x hx0 hx
        rcases hCov1 x hx hx0 with he | hpl
        · exact absurd (he.trans hi1z) hx0
        · exact hpl
      · rw [if_neg hi1z] at hins; exact absurd hins (by simp)
  | succ f IHf =>
    intro S sc i sc' hW hO hi0 hilen hni hC hins
    rw [insert_fuel_succ_eq] at hins
    cases hloop : evict_loop 20 sc i with
    | none => rw [hloop] at hins; exact absurd hins (by simp)
    | some p =>
      obtain ⟨sc1, i1⟩ := p
      rw [hloop] at hins
      dsimp only at hins
      have hl := evict_loop_inv 20 S sc i sc1 i1 hW hO hi0 hilen hni hC hloop
      obtain ⟨he1, ht1, hn1, hl1, hW1, hO1, hpers1, hCov1, hj1⟩ := hl
      by_cases hi1z : i1 = 0
      · rw [if_pos hi1z] at hins
        obtain rfl : sc1 = sc' := Option.some.inj hins
        refine ⟨he1, hn1, hl1, le_of_eq ht1.symm, hW1, hO1, ?_, hpers1⟩
        intro x hx0 hx
        rcases hCov1 x hx hx0 with he | hpl
        · exact absurd (he.trans hi1z) hx0
        · exact hpl
      · rw [if_neg hi1z] at hins
        obtain ⟨hb1, hni1, horig1⟩ := hj1 hi1z
        cases hre : reinsertAux (insert_fuel f) (grown sc1) sc1.table with
        | none => rw [hre] at hins; exact absurd hins (by simp)
        | some sc2 =>
          rw [hre] at hins
          dsimp only at hins
          have hRe := reinsert_of_insert f IHf sc1.table (grown sc1) sc2
            (grown_WFslots sc1 hW1) (grown_TableOnce sc1)
            (fun k hk hk0 => mem_table_bound sc1 hW1 k hk hk0)
            (fun k _ hk0 => grown_NotInTable sc1 k hk0)
            (fun k hk0 => hO1 k hk0)
            hre
          obtain ⟨hE2, hN2, hL2, hT2, hW2, hO2, hpl2, hper2⟩ := hRe
          have hent2 : sc2.entries = sc.entries := by
            rw [hE2]; exact he1
          have hi1len2 : i1 < sc2.entries.length := by rw [hent2]; exact hb1
          have hni12 : NotInTable sc2 i1 :=
            hper2 i1 hi1z (grown_NotInTable sc1 i1 hi1z)
              (fun hmem => (List.count_eq_zero.1 hni1) hmem)
          have hCov2 : Covers sc2 (fun x => S x ∨ x = i) i1 := by
            intro x hx hx0
            rcases hCov1 x hx hx0 with he | hpl
            · exact Or.inl he
            · exact Or.inr (hpl2 x hx0 (Or.inr (placed_mem sc1 x hx0 hpl)))
          have hrec := IHf (fun x => S x ∨ x = i) sc2 i1 sc' hW2 hO2 hi1z hi1len2
            hni12 hCov2 hins
          obtain ⟨hE3, hN3, hL3, hT3, hW3, hO3, hpl3, hper3⟩ := hrec
          refine ⟨hE3.trans hent2, hN3.trans (hN2.trans hn1), hL3.trans (hL2.trans hl1),
            ?_, hW3, hO3, ?_, ?_⟩
          · calc sc.table_size = sc1.table_size := ht1.symm
              _ ≤ (grown sc1).table_size := by
                  show sc1.table_size ≤ sc1.table_size * 2; omega
              _ ≤ sc2.table_size := hT2
              _ ≤ sc'.table_size := hT3
          · intro x hx0 hx
            exact hpl3 x hx0 (Or.inl hx)
          · intro x hx0 hnx hxi
            have hx1 : NotInTable sc1 x := hpers1 x hx0 hnx hxi
            have hxmem : x ∉ sc1.table := List.count_eq_zero.1 hx1
            have hx2 : NotInTable sc2 x :=
              hper2 x hx0 (grown_NotInTable sc1 x hx0) hxmem
            have hxi1 : x ≠ i1 := by
              intro he
              rcases horig1 with he2 | hcnt
              · exact hxi (he.trans he2)
              · have hnx2 : sc.table.count x = 0 := hnx
                rw [he] at hnx2
                omega
            exact hper3 x hx0 hx2 hxi1

lemma writeAt_append (l : List (Nat × Nat)) (kv : Nat × Nat) :
    writeAt l l.length kv = l ++ [kv] := by
  unfold writeAt
  rw [if_neg (lt_irrefl _)]

lemma keyOf_append (sc : SmallCuckoo) (n2 l2 : Nat) (kv : Nat × Nat) (j : Nat)
    (hj : j < sc.entries.length) :
    keyOf { sc with n_entries := n2, entries_len := l2, entries := sc.entries ++ [kv] } j =
      keyOf sc j := by
  simp only [keyOf]
  rw [List.getD_append _ _ _ _ hj]

lemma WFslots_append (sc : SmallCuckoo) (hW : WFslots sc) (n2 l2 : Nat) (kv : Nat × Nat) :
    WFslots { sc with n_entries := n2, entries_len := l2, entries := sc.entries ++ [kv] } := by
  obtain ⟨hlen, hpow, hslots⟩ := hW
  refine ⟨hlen, hpow, ?_⟩
  intro h hh
  rcases hslots h hh with hempty | ⟨hb, hs1, hs2⟩
  · left; exact hempty
  · right
    refine ⟨by simp only [List.length_append, List.length_cons, List.length_nil]; omega, ?_, ?_⟩
    · intro hpar
      have hkey := keyOf_append sc n2 l2 kv (sc.table.getD h 0) hb
      simp only [slot1] at hs1 ⊢
      rw [hkey]
      exact hs1 hpar
    · intro hpar
      have hkey := keyOf_append sc n2 l2 kv (sc.table.getD h 0) hb
      simp only [slot2] at hs2 ⊢
      rw [hkey]
      exact hs2 hpar

lemma placed_append (sc : SmallCuckoo) (n2 l2 : Nat) (kv : Nat × Nat) (j : Nat)
    (hj : j < sc.entries.length) (hp : placed sc j) :
    placed { sc with n_entries := n2, entries_len := l2, entries := sc.entries ++ [kv] } j := by
  have hkey := keyOf_append sc n2 l2 kv j hj
  rcases hp with hp | hp
  · left
    simp only [slot1]
    rw [hkey]
    exact hp
  · right
    simp only [slot2]
    rw [hkey]
    exact hp

lemma small_cuckoo_insert_ok (fuel : Nat) (sc : SmallCuckoo) (key value : Nat)
    (sc' : SmallCuckoo) (hWF : WF sc)
    (hins : small_cuckoo_insert fuel sc key value = some sc') :
    WF sc' ∧ sc'.entries = sc.entries ++ [(key, value)] := by
  obtain ⟨hWs, hO, hP, hL1, hcnt⟩ := hWF
  unfold small_cuckoo_insert at hins
  by_cases hiz : sc.n_entries = 0
  · rw [if_pos hiz] at hins
    exact absurd hins (by simp)
  · rw [if_neg hiz] at hins
    obtain ⟨hnL, hLle⟩ : sc.n_entries = sc.entries.length ∧ sc.entries.length ≤ 65535 := by
      rcases hcnt with h | ⟨h0, -⟩
      · exact h
      · exact absurd h0 hiz
    set L := sc.entries.length with hLdef
    by_cases habort : sc.entries_len ≤ (sc.n_entries + 1) % 65536 ∧
        (if sc.entries_len ≤ (sc.n_entries + 1) % 65536 then sc.entries_len * 2 % 65536
          else sc.entries_len) = 0
    · rw [if_pos habort] at hins
      exact absurd hins (by simp)
    · rw [if_neg habort] at hins
      have hwr : writeAt sc.entries sc.n_entries (key, value) = sc.entries ++ [(key, value)] := by
        rw [hnL]
        exact writeAt_append sc.entries (key, value)
      rw [hwr] at hins
      set scMid : SmallCuckoo :=
        { sc with n_entries := (sc.n_entries + 1) % 65536,
                  entries_len := if sc.entries_len ≤ (sc.n_entries + 1) % 65536 then
                    sc.entries_len * 2 % 65536 else sc.entries_len,
                  entries := sc.entries ++ [(key, value)] } with hmid
      have hWmid : WFslots scMid := WFslots_append sc hWs _ _ _
      have hOmid : TableOnce scMid := hO
      have hLmid : scMid.entries.length = L + 1 := by
        simp only [hmid, List.length_append, List.length_cons, List.length_nil]
      have hnot : NotInTable scMid sc.n_entries := by
        show scMid.table.count sc.n_entries = 0
        refine List.count_eq_zero.2 (fun hmem => ?_)
        have := mem_table_bound sc hWs sc.n_entries hmem hiz
        omega
      have hCov : Covers scMid (fun x => placed scMid x) sc.n_entries :=
        fun j hj hj0 => Or.inr hj
      have hmain := insert_ok_all fuel (fun x => placed scMid x) scMid sc.n_entries sc'
        hWmid hOmid hiz (by rw [hLmid]; omega) hnot hCov hins
      obtain ⟨hE, hN, hEL, hT, hW3, hO3, hpl3, -⟩ := hmain
      have hent : sc'.entries = sc.entries ++ [(key, value)] := hE
      refine ⟨⟨hW3, hO3, ?_, ?_, ?_⟩, hent⟩
      · intro j hj1 hjlen
        rw [hent, List.length_append, List.length_cons, List.length_nil] at hjlen
        by_cases hjL : j < L
        · refine hpl3 j (by omega) (Or.inl ?_)
          exact placed_append sc _ _ _ j (by omega) (hP j hj1 (by omega))
        · have : j = sc.n_entries := by omega
          exact hpl3 j (by omega) (Or.inr this)
      · rw [hent, List.length_append]
        omega
      · rw [hent, List.length_append, List.length_cons, List.length_nil, hN]
        show ((sc.n_entries + 1) % 65536 = L + 1 ∧ L + 1 ≤ 65535) ∨
          ((sc.n_entries + 1) % 65536 = 0 ∧ L + 1 = 65536)
        by_cases htop : L = 65535
        · right
          rw [hnL, htop]
          omega
        · left
          rw [hnL]
          constructor
          · rw [Nat.mod_eq_of_lt (by omega)]
          · omega

lemma WF_new (initial_size : Nat) (junk : Nat × Nat) :
    WF (small_cuckoo_new initial_size junk) := by
  refine ⟨⟨by simp [small_cuckoo_new], ⟨ceil_pow2 initial_size + 1, by omega, rfl⟩, ?_⟩,
    ?_, ?_, ?_, ?_⟩
  · intro h hh
    left
    exact getD_replicate_zero _ _
  · intro j hj
    show (List.replicate (2 ^ (ceil_pow2 initial_size + 1)) 0).count j ≤ 1
    have h0 : (List.replicate (2 ^ (ceil_pow2 initial_size + 1)) 0).count j = 0 :=
      List.count_eq_zero.2 fun hmem => hj (List.eq_of_mem_replicate hmem)
    omega
  · intro j hj1 hjlen
    simp only [small_cuckoo_new, List.length_cons, List.length_nil] at hjlen
    omega
  · simp [small_cuckoo_new]
  · left
    constructor
    · simp [small_cuckoo_new]
    · simp [small_cuckoo_new]

lemma insertAll_ok (l : List (Nat × Nat)) :
    ∀ (fuel : Nat) (sc sc' : SmallCuckoo), WF sc → insertAll fuel sc l = some sc' →
    WF sc' ∧ sc'.entries = sc.entries ++ l := by
  induction l with
  | nil =>
    intro fuel sc sc' hWF hall
    obtain rfl : sc = sc' := Option.some.inj hall
    exact ⟨hWF, by simp⟩
  | cons kv l IH =>
    intro fuel sc sc' hWF hall
    rw [show insertAll fuel sc (kv :: l) =
      (match small_cuckoo_insert fuel sc kv.1 kv.2 with
        | none => none
        | some sc2 => insertAll fuel sc2 l) from rfl] at hall
    cases hins : small_cuckoo_insert fuel sc kv.1 kv.2 with
    | none => rw [hins] at hall; exact absurd hall (by simp)
    | some sc2 =>
      rw [hins] at hall
      dsimp only at hall
      obtain ⟨hWF2, hent2⟩ := small_cuckoo_insert_ok fuel sc kv.1 kv.2 sc2 hWF hins
      obtain ⟨hWF3, hent3⟩ := IH fuel sc2 sc' hWF2 hall
      refine ⟨hWF3, ?_⟩
      rw [hent3, hent2]
      simp

lemma find_correct (sc : SmallCuckoo) (junk : Nat × Nat) (l : List (Nat × Nat))
    (hWF : WF sc) (hent : sc.entries = junk :: l) (hnd : (l.map Prod.fst).Nodup)
    (kv : Nat × Nat) (hkv : kv ∈ l) :
    small_cuckoo_find sc kv.1 = some kv.2 := by
  obtain ⟨hWs, hO, hP, hL1, hcnt⟩ := hWF
  obtain ⟨p, hp, hget⟩ : ∃ (p : Nat) (hp : p < l.length), l[p] = kv := by
    obtain ⟨⟨p, hp⟩, hg⟩ := List.mem_iff_get.1 hkv
    exact ⟨p, hp, hg⟩
  have hilen : p + 1 < sc.entries.length := by
    rw [hent]
    simp only [List.length_cons]
    omega
  have hEi : sc.entries.getD (p + 1) (0, 0) = kv := by
    rw [hent, List.getD_cons_succ, List.getD_eq_getElem _ _ hp, hget]
  have hkeyi : keyOf sc (p + 1) = kv.1 := by
    simp only [keyOf, hEi]
  have huniq : ∀ j, j ≠ 0 → j < sc.entries.length →
      (sc.entries.getD j (0, 0)).1 = kv.1 → j = p + 1 := by
    intro j hj0 hjlen hjkey
    have hjl : j - 1 < l.length := by
      rw [hent] at hjlen
      simp only [List.length_cons] at hjlen
      omega
    have hsplit : j = (j - 1) + 1 := by omega
    have hgd : sc.entries.getD j (0, 0) = l[j - 1] := by
      rw [hent]
      have h2 : (junk :: l).getD ((j - 1) + 1) (0, 0) = l.getD (j - 1) (0, 0) :=
        List.getD_cons_succ ..
      rw [← hsplit] at h2
      rw [h2, List.getD_eq_getElem _ _ hjl]
    have hj1m : j - 1 < (l.map Prod.fst).length := by simpa using hjl
    have hpm : p < (l.map Prod.fst).length := by simpa using hp
    have hmfst : (l.map Prod.fst).get ⟨j - 1, hj1m⟩ = (l.map Prod.fst).get ⟨p, hpm⟩ := by
      rw [List.get_eq_getElem, List.get_eq_getElem, List.getElem_map, List.getElem_map]
      rw [← hgd] at *
      rw [hjkey, hget]
    have hfin := (List.Nodup.get_inj_iff hnd).1 hmfst
    have := congrArg Fin.val hfin
    simp only [] at this
    omega
  have hpl : placed sc (p + 1) := hP (p + 1) (by omega) hilen
  have hts2 : 2 ≤ sc.table_size := ts_ge_two sc hWs
  obtain ⟨hlen, hpow, hslots⟩ := hWs
  have hs1 : slot1 sc (p + 1) = hash_1 sc.table_size kv.1 := by
    simp only [slot1, hkeyi]
  have hs2 : slot2 sc (p + 1) = hash_2 sc.table_size kv.1 := by
    simp only [slot2, hkeyi]
  unfold small_cuckoo_find
  by_cases hc1 : sc.table.getD (hash_1 sc.table_size kv.1) 0 ≠ 0 ∧
      (sc.entries.getD (sc.table.getD (hash_1 sc.table_size kv.1) 0) (0, 0)).1 = kv.1
  · rw [if_pos hc1]
    obtain ⟨hne0, hkeq⟩ := hc1
    have hj1lt : sc.table.getD (hash_1 sc.table_size kv.1) 0 < sc.entries.length := by
      have he_lt : hash_1 sc.table_size kv.1 < sc.table_size :=
        hash_1_lt sc.table_size kv.1 hts2 hpow
      rcases hslots (hash_1 sc.table_size kv.1) he_lt with hemp | ⟨hb, -, -⟩
      · exact absurd hemp hne0
      · exact hb
    have := huniq (sc.table.getD (hash_1 sc.table_size kv.1) 0) hne0 hj1lt hkeq
    rw [this, hEi]
  · rw [if_neg hc1]
    have hAtO : sc.table.getD (hash_2 sc.table_size kv.1) 0 = p + 1 := by
      rcases hpl with hp1 | hp2
      · exfalso
        rw [hs1] at hp1
        refine hc1 ⟨by rw [hp1]; omega, ?_⟩
        rw [hp1, hEi]
      · rw [hs2] at hp2
        exact hp2
    rw [if_pos ⟨by rw [hAtO]; omega, by rw [hAtO, hEi]⟩, hAtO, hEi]

/-- C1: for every sequence of insertions of distinct keys into a freshly
constructed table — any capacity hint, any (uninitialized) sentinel
contents, any per-insert doubling budget — if the sequence of
`small_cuckoo_insert` calls completes, then a subsequent
`small_cuckoo_find` on each inserted key succeeds and returns the value
that was inserted with that key. -/
theorem c1_find_after_distinct_inserts
    (l : List (Nat × Nat)) (fuel init : Nat) (junk : Nat × Nat) (sc' : SmallCuckoo)
    (hnd : (l.map Prod.fst).Nodup)
    (hall : insertAll fuel (small_cuckoo_new init junk) l = some sc') :
    ∀ kv ∈ l, small_cuckoo_find sc' kv.1 = some kv.2 := by
  obtain ⟨hWF, hent⟩ := insertAll_ok l fuel _ sc' (WF_new init junk) hall
  intro kv hkv
  exact find_correct sc' junk l hWF (by rw [hent]; rfl) hnd kv hkv

/-- Witness for C1: inserting (1, 10) and (2, 20) into a fresh table
with hint 0 completes without any doubling and both keys are found with
their values. -/
theorem c1_find_after_distinct_inserts_witness :
    (([(1, 10), (2, 20)] : List (Nat × Nat)).map Prod.fst).Nodup ∧
    insertAll 0 (small_cuckoo_new 0 (0, 0)) [(1, 10), (2, 20)] = some scW ∧
    small_cuckoo_find scW 1 = some 10 ∧ small_cuckoo_find scW 2 = some 20 := by
  have h := c1_find_after_distinct_inserts [(1, 10), (2, 20)] 0 0 (0, 0) scW
    (by decide) (by decide)
  exact ⟨by decide, by decide, h (1, 10) (by decide), h (2, 20) (by decide)⟩

/-- C2 (code bug): the serialize/deserialize round trip loses the high
32 bits of every key and value, because both codec macros stage each
64-bit field in a `uint32_t u` while transferring 8 bytes.  Inserting
the single pair (2^32 + 1, 5) yields `scT2`; serializing it and
deserializing the stream (even into perfectly zeroed memory) produces a
table whose live entry is (1, 5), and `find` no longer succeeds on the
original key. -/
theorem c2_roundtrip_loses_high_bits :
    insertAll 1 (small_cuckoo_new 0 (0, 0)) [(4294967297, 5)] = some scT2 ∧
    Option.map (fun sc => (sc.entries.getD 1 (0, 0), small_cuckoo_find sc 4294967297))
      (small_cuckoo_deserialize 1 (small_cuckoo_serialize 0 scT2) []) =
      some ((1, 5), none) := by
  exact ⟨by decide, by decide⟩

/-- C3 counterexample: serializing the table that holds the single pair
(42, 100) emits 34 bytes, not the 18 the claim asserts: the loop in
`small_cuckoo_serialize` runs over all `n_entries = 2` stored entries,
including the reserved index-0 sentinel, at 16 bytes each after the
2-byte count. -/
theorem c3_stream_is_34_bytes :
    insertAll 1 (small_cuckoo_new 0 (0, 0)) [(42, 100)] = some scSingle ∧
    (small_cuckoo_serialize 0 scSingle).length = 34 ∧
    (small_cuckoo_serialize 0 scSingle).length ≠ 18 := by
  exact ⟨by decide, by decide, by decide⟩

/-- C3 amended: the stream is the 2-byte little-endian entry count
followed by one 16-byte record per stored entry index 0..n_entries-1
(the index-0 sentinel included), each record being 4 little-endian bytes
of the key's low 32 bits, 4 unspecified stack bytes, 4 little-endian
bytes of the value's low 32 bits and 4 unspecified stack bytes; for the
single-pair (42, 100) table this is 34 bytes with count 2 at offset 0,
the key bytes of pair (42, 100) at offset 18 and its value bytes at
offset 26, whatever the unspecified bytes `g` are. -/
theorem c3_serialized_layout (g : Nat) :
    (small_cuckoo_serialize g scSingle).length = 2 + 16 * scSingle.n_entries ∧
    (small_cuckoo_serialize g scSingle).take 2 = [2, 0] ∧
    ((small_cuckoo_serialize g scSingle).drop 18).take 4 = [42, 0, 0, 0] ∧
    ((small_cuckoo_serialize g scSingle).drop 26).take 4 = [100, 0, 0, 0] := by
  exact ⟨rfl, rfl, rfl, rfl⟩

/-- C4 (code bug): `small_cuckoo_deserialize` allocates the slot table
with `malloc`, not `calloc`, so reconstruction does not start from a
zeroed slot table: replaying the same 34-byte stream into memory whose
slot 3 holds residual garbage `1` leaves that garbage in the result
(slot 3 still maps to entry 1), while replaying into zeroed memory
leaves slot 3 empty — the two runs produce different tables. -/
theorem c4_slot_table_not_zeroed :
    Option.map (fun sc => sc.table.getD 3 0)
      (small_cuckoo_deserialize 1 streamSingle junkSlot3) = some 1 ∧
    Option.map (fun sc => sc.table.getD 3 0)
      (small_cuckoo_deserialize 1 streamSingle []) = some 0 ∧
    small_cuckoo_deserialize 1 streamSingle junkSlot3 ≠
      small_cuckoo_deserialize 1 streamSingle [] := by
  exact ⟨by decide, by decide, by decide⟩

/-- C6 (code bug): after deserializing the single-pair stream into
malloc junk (slot 3 = 1), the resulting table violates the slot
invariant: the odd slot 3 holds entry index 1 whose stored key is 42,
but the odd-parity selector maps 42 to slot `hash_2 8 42 = 5`, not 3. -/
theorem c6_deserialized_slot_inconsistent :
    Option.map (fun sc =>
        (sc.table.getD 3 0, (sc.entries.getD (sc.table.getD 3 0) (0, 0)).1,
          hash_2 sc.table_size (sc.entries.getD (sc.table.getD 3 0) (0, 0)).1))
      (small_cuckoo_deserialize 1 streamSingle junkSlot3) = some (1, 42, 5) ∧
    (3 : Nat) % 2 = 1 ∧ (5 : Nat) ≠ 3 := by
  exact ⟨by decide, by decide, by decide⟩

/-- C5 counterexample: the keys 1, 3, 6 collide on both selectors at
table sizes 2 and 4, so inserting the third key exhausts the 20
relocation rounds, doubles the table — and the retried insertion fails
its 20 rounds again at the doubled size, forcing one more doubling.
With a budget of one doubling per insert the sequence does not complete;
with two it completes at table_size 8 (two doublings from the initial
size 2), refuting "the previously failing insertion ... succeeds after
growth". -/
theorem c5_single_growth_insufficient :
    insertAll 1 (small_cuckoo_new 0 (0, 0)) [(1, 1), (3, 2), (6, 3)] = none ∧
    Option.map SmallCuckoo.table_size
      (insertAll 2 (small_cuckoo_new 0 (0, 0)) [(1, 1), (3, 2), (6, 3)]) = some 8 := by
  exact ⟨by decide, by decide⟩

/-- C8 (code bug): the entry store cannot reach 65,534 pairs.
`entries_len` is a `uint16_t`; its doubling sequence 1, 2, ..., 32768
wraps to 0 when the entry count reaches 32768, making the subsequent
`realloc(entries, 0)` fail, and the ENSURE aborts.  `scNearCap` carries
the counter state reached after 32766 successful insertions into a
hint-0 table; the next insertion aborts (`none`) long before the 16-bit
index space is exhausted. -/
theorem c8_entry_store_capacity_abort :
    small_cuckoo_insert 0 scNearCap 7 7 = none := by
  decide

/-- C5 amended: when the 20-round eviction loop fails to place an entry
(ends with a nonzero in-hand index), table doubling is always triggered
— with no growth budget the insertion cannot complete at the current
size — the doubled slot table strictly increases `table_size`, and the
failing index is retried from scratch against the rebuilt table; the
retry itself may fail again and force further doubling, so a single
growth need not make the insertion succeed. -/
theorem c5_growth_never_skipped (f : Nat) (sc sc1 sc2 : SmallCuckoo) (i i1 : Nat)
    (hloop : evict_loop 20 sc i = some (sc1, i1)) (hne : i1 ≠ 0)
    (hts : 1 ≤ sc1.table_size)
    (hre : reinsertAux (insert_fuel f) (grown sc1) sc1.table = some sc2) :
    insert_fuel 0 sc i = none ∧
    (grown sc1).table_size = 2 * sc1.table_size ∧
    sc1.table_size < (grown sc1).table_size ∧
    insert_fuel (f + 1) sc i = insert_fuel f sc2 i1 := by
  refine ⟨?_, ?_, ?_, ?_⟩
  · rw [insert_fuel_zero_eq, hloop]
    dsimp only
    rw [if_neg hne]
  · show sc1.table_size * 2 = 2 * sc1.table_size
    omega
  · show sc1.table_size < sc1.table_size * 2
    omega
  · rw [insert_fuel_succ_eq, hloop]
    dsimp only
    rw [if_neg hne, hre]

/-- Witness for the amended C5, on the colliding key triple 1, 3, 6:
inserting entry 3 into `scTriple` fails its 20 rounds ending with index
2 in hand, growth is forced (fuel 0 aborts), the slot table doubles from
2 to 4, and the insert is retried from scratch on the rebuilt `scQuad`. -/
theorem c5_growth_never_skipped_witness :
    evict_loop 20 scTriple 3 = some (scTriple1, 2) ∧ (2 : Nat) ≠ 0 ∧
    (1 : Nat) ≤ scTriple1.table_size ∧
    reinsertAux (insert_fuel 0) (grown scTriple1) scTriple1.table = some scQuad ∧
    (insert_fuel 0 scTriple 3 = none ∧
      (grown scTriple1).table_size = 2 * scTriple1.table_size ∧
      scTriple1.table_size < (grown scTriple1).table_size ∧
      insert_fuel 1 scTriple 3 = insert_fuel 0 scQuad 2) := by
  refine ⟨by decide, by decide, by decide, by decide, ?_⟩
  exact c5_growth_never_skipped 0 scTriple scTriple1 scQuad 3 2
    (by decide) (by decide) (by decide) (by decide)

lemma scanPos_ge (sc : SmallCuckoo) (i : Nat) (h : sc.table_size ≤ i) :
    scanPos sc i = i := by
  unfold scanPos
  rw [show sc.table_size - i = 0 from by omega]
  rfl

lemma scanPos_hit (sc : SmallCuckoo) (i : Nat) (hlt : i < sc.table_size)
    (hnz : sc.table.getD i 0 ≠ 0) : scanPos sc i = i := by
  unfold scanPos
  obtain ⟨m, hm⟩ : ∃ m, sc.table_size - i = m + 1 := ⟨sc.table_size - i - 1, by omega⟩
  rw [hm]
  show scanPosAux (m + 1) sc i = i
  rw [show scanPosAux (m + 1) sc i =
    (if i < sc.table_size then
      (if sc.table.getD i 0 ≠ 0 then i else scanPosAux m sc (i + 1))
      else i) from rfl]
  rw [if_pos hlt, if_pos hnz]

lemma scanPos_skip (sc : SmallCuckoo) (i : Nat) (hlt : i < sc.table_size)
    (hz : sc.table.getD i 0 = 0) : scanPos sc i = scanPos sc (i + 1) := by
  unfold scanPos
  obtain ⟨m, hm⟩ : ∃ m, sc.table_size - i = m + 1 := ⟨sc.table_size - i - 1, by omega⟩
  rw [hm, show sc.table_size - (i + 1) = m from by omega]
  show scanPosAux (m + 1) sc i = scanPosAux m sc (i + 1)
  rw [show scanPosAux (m + 1) sc i =
    (if i < sc.table_size then
      (if sc.table.getD i 0 ≠ 0 then i else scanPosAux m sc (i + 1))
      else i) from rfl]
  rw [if_pos hlt, if_neg (by simpa using hz)]

lemma iter_drain_succ_eq (fuel : Nat) (it : SmallCuckooIter) :
    iter_drain (fuel + 1) it =
      match small_cuckoo_iter_has_next it with
      | (false, _) => []
      | (true, it1) =>
        match small_cuckoo_iter_next it1 with
        | none => []
        | some (kv, it2) => kv :: iter_drain fuel it2 := rfl

lemma iter_drain_eq (sc : SmallCuckoo) (hlen : sc.table.length = sc.table_size) :
    ∀ (d fuel i : Nat), sc.table_size - i ≤ d → sc.table_size - i ≤ fuel →
    iter_drain fuel ⟨sc, i⟩ =
      (sc.table.drop i).filterMap
        (fun j => if j = 0 then none else some (sc.entries.getD j (0, 0))) := by
  intro d
  induction d with
  | zero =>
    intro fuel i hd hf
    have hts : sc.table_size ≤ i := by omega
    have hdrop : sc.table.drop i = [] := List.drop_eq_nil_of_le (by omega)
    rw [hdrop]
    cases fuel with
    | zero => rfl
    | succ g =>
      rw [iter_drain_succ_eq]
      have hhn : small_cuckoo_iter_has_next ⟨sc, i⟩ = (false, ⟨sc, i⟩) := by
        show (decide (scanPos sc i < sc.table_size),
          (⟨sc, scanPos sc i⟩ : SmallCuckooIter)) = (false, ⟨sc, i⟩)
        rw [scanPos_ge sc i hts, decide_eq_false (by omega)]
      rw [hhn]
      rfl
  | succ d IH =>
    intro fuel i hd hf
    by_cases hts : sc.table_size ≤ i
    · have hdrop : sc.table.drop i = [] := List.drop_eq_nil_of_le (by omega)
      rw [hdrop]
      cases fuel with
      | zero => rfl
      | succ g =>
        rw [iter_drain_succ_eq]
        have hhn : small_cuckoo_iter_has_next ⟨sc, i⟩ = (false, ⟨sc, i⟩) := by
          show (decide (scanPos sc i < sc.table_size),
            (⟨sc, scanPos sc i⟩ : SmallCuckooIter)) = (false, ⟨sc, i⟩)
          rw [scanPos_ge sc i hts, decide_eq_false (by omega)]
        rw [hhn]
        rfl
    · have hlt : i < sc.table_size := by omega
      have hitab : i < sc.table.length := by omega
      obtain ⟨g, rfl⟩ : ∃ g, fuel = g + 1 := ⟨fuel - 1, by omega⟩
      have hdrop : sc.table.drop i = sc.table[i] :: sc.table.drop (i + 1) :=
        List.drop_eq_getElem_cons hitab
      have hgetd : sc.table.getD i 0 = sc.table[i] := List.getD_eq_getElem _ _ hitab
      by_cases hz : sc.table.getD i 0 = 0
      · have heq : small_cuckoo_iter_has_next ⟨sc, i⟩ =
            small_cuckoo_iter_has_next ⟨sc, i + 1⟩ := by
          show (decide (scanPos sc i < sc.table_size),
              (⟨sc, scanPos sc i⟩ : SmallCuckooIter)) =
            (decide (scanPos sc (i + 1) < sc.table_size),
              (⟨sc, scanPos sc (i + 1)⟩ : SmallCuckooIter))
          rw [scanPos_skip sc i hlt hz]
        rw [iter_drain_succ_eq, heq, ← iter_drain_succ_eq]
        rw [IH (g + 1) (i + 1) (by omega) (by omega)]
        rw [hdrop, List.filterMap_cons]
        rw [show sc.table[i] = 0 from by rw [← hgetd]; exact hz]
        rfl
      · have hhn : small_cuckoo_iter_has_next ⟨sc, i⟩ = (true, ⟨sc, i⟩) := by
          show (decide (scanPos sc i < sc.table_size),
            (⟨sc, scanPos sc i⟩ : SmallCuckooIter)) = (true, ⟨sc, i⟩)
          rw [scanPos_hit sc i hlt hz, decide_eq_true hlt]
        have hnx : small_cuckoo_iter_next ⟨sc, i⟩ =
            some (sc.entries.getD (sc.table.getD i 0) (0, 0), ⟨sc, i + 1⟩) := by
          show (if scanPos sc i < sc.table_size then
              some (sc.entries.getD (sc.table.getD (scanPos sc i) 0) (0, 0),
                (⟨sc, scanPos sc i + 1⟩ : SmallCuckooIter))
            else none) =
            some (sc.entries.getD (sc.table.getD i 0) (0, 0), ⟨sc, i + 1⟩)
          rw [scanPos_hit sc i hlt hz, if_pos hlt]
        rw [iter_drain_succ_eq, hhn]
        dsimp only
        rw [hnx]
        dsimp only
        rw [IH g (i + 1) (by omega) (by omega)]
        rw [hdrop, List.filterMap_cons]
        have hz2 : ¬ (sc.table[i] = 0) := by rw [← hgetd]; exact hz
        rw [if_neg hz2, hgetd]

lemma filterMap_if_eq_map_filter (t : List Nat) (f : Nat → Nat × Nat) :
    t.filterMap (fun j => if j = 0 then none else some (f j)) =
      (t.filter (fun j => decide (j ≠ 0))).map f := by
  induction t with
  | nil => rfl
  | cons a t ih =>
    by_cases ha : a = 0
    · subst ha
      simp only [List.filterMap_cons, List.filter_cons, if_pos rfl]
      simpa using ih
    · simp only [List.filterMap_cons, List.filter_cons, if_neg ha]
      simp only [decide_eq_true (show a ≠ 0 from ha)]
      simpa [ha] using congrArg (f a :: ·) ih

lemma table_filter_perm (sc : SmallCuckoo) (hW : WFslots sc) (hO : TableOnce sc)
    (hP : allPlaced sc) :
    (sc.table.filter (fun j => decide (j ≠ 0))).Perm
      (List.range' 1 (sc.entries.length - 1)) := by
  rw [List.perm_iff_count]
  intro a
  by_cases ha : a = 0
  · subst ha
    rw [List.count_eq_zero.2 (fun hmem => by simpa using (List.mem_filter.1 hmem).2),
      List.count_eq_zero.2 (fun hmem => by
        have := (List.mem_range'_1.1 hmem).1
        omega)]
  · rw [List.count_filter (by simp [ha])]
    by_cases hlt : a < sc.entries.length
    · have h1 : sc.table.count a ≤ 1 := hO a ha
      have h2 : 1 ≤ sc.table.count a :=
        List.one_le_count_iff.2 (placed_mem sc a ha (hP a (by omega) hlt))
      have hcnt : sc.table.count a = 1 := by omega
      rw [hcnt]
      have hmem : a ∈ List.range' 1 (sc.entries.length - 1) :=
        List.mem_range'_1.2 ⟨by omega, by omega⟩
      exact (List.count_eq_one_of_mem (List.nodup_range' ..) hmem).symm
    · rw [List.count_eq_zero.2 (fun hmem => hlt (mem_table_bound sc hW a hmem ha)),
        List.count_eq_zero.2 (fun hmem => by
          have := (List.mem_range'_1.1 hmem).2
          omega)]

lemma map_getD_range' (junk : Nat × Nat) (l : List (Nat × Nat)) :
    (List.range' 1 l.length).map (fun j => (junk :: l).getD j (0, 0)) = l := by
  refine List.ext_getElem (by simp [List.length_range' ..]) ?_
  intro q ha hb
  rw [List.getElem_map]
  rw [List.getElem_range'_1 q (by simpa [List.length_range' ..] using ha)]
  rw [show 1 + q = q + 1 from by omega, List.getD_cons_succ,
    List.getD_eq_getElem _ _ hb]

/-- C7: for every table built by a completed sequence of insertions of
distinct keys into a fresh table, running a fresh iterator to exhaustion
(with the standard has-next/next client loop) yields exactly the
inserted (key, value) pairs, each exactly once, in some (table) order —
the drained list is a permutation of the inserted list — and iteration
is a pure function of the unmodified table, so a second independent
fresh iterator drains to the very same list. -/
theorem c7_iterator_yields_inserted
    (l : List (Nat × Nat)) (fuel init : Nat) (junk : Nat × Nat) (sc' : SmallCuckoo)
    (hnd : (l.map Prod.fst).Nodup)
    (hall : insertAll fuel (small_cuckoo_new init junk) l = some sc') :
    (iter_drain sc'.table_size (small_cuckoo_iterate sc')).Perm l ∧
    iter_drain sc'.table_size (small_cuckoo_iterate sc') =
      iter_drain sc'.table_size (small_cuckoo_iterate sc') := by
  obtain ⟨hWF, hent⟩ := insertAll_ok l fuel _ sc' (WF_new init junk) hall
  obtain ⟨hWs, hO, hP, hL1, -⟩ := hWF
  have hlen : sc'.table.length = sc'.table_size := hWs.1
  refine ⟨?_, rfl⟩
  rw [show small_cuckoo_iterate sc' = ⟨sc', 0⟩ from rfl]
  rw [iter_drain_eq sc' hlen sc'.table_size sc'.table_size 0 (by omega) (by omega)]
  rw [List.drop_zero, filterMap_if_eq_map_filter]
  have hperm := (table_filter_perm sc' hWs hO hP).map
    (fun j => sc'.entries.getD j (0, 0))
  have hentl : sc'.entries = junk :: l := by rw [hent]; rfl
  have hlength : sc'.entries.length - 1 = l.length := by rw [hentl]; simp
  rw [hlength] at hperm
  have hmr : (List.range' 1 l.length).map (fun j => sc'.entries.getD j (0, 0)) = l := by
    rw [hentl]
    exact map_getD_range' junk l
  rw [hmr] at hperm
  exact hperm

/-- Witness for C7: draining the table built from (1, 10), (2, 20)
yields the two pairs (in table order (2, 20), (1, 10)), a permutation of
the inserted list, and a second fresh iterator yields the same list. -/
theorem c7_iterator_yields_inserted_witness :
    (([(1, 10), (2, 20)] : List (Nat × Nat)).map Prod.fst).Nodup ∧
    insertAll 0 (small_cuckoo_new 0 (0, 0)) [(1, 10), (2, 20)] = some scW ∧
    (iter_drain scW.table_size (small_cuckoo_iterate scW)).Perm [(1, 10), (2, 20)] ∧
    iter_drain scW.table_size (small_cuckoo_iterate scW) =
      iter_drain scW.table_size (small_cuckoo_iterate scW) := by
  have h := c7_iterator_yields_inserted [(1, 10), (2, 20)] 0 0 (0, 0) scW
    (by decide) (by decide)
  exact ⟨by decide, by decide, h.1, h.2⟩

lemma byte_of_mod_low (k i : Nat) (hi : i ≤ 6) :
    k % 72057594037927936 / 256 ^ i % 256 = k / 256 ^ i % 256 := by
  have h1 : (72057594037927936 : Nat) = 256 ^ i * (256 ^ (6 - i) * 256) := by
    rw [← mul_assoc, ← pow_add, show i + (6 - i) = 6 from by omega]
    norm_num
  rw [h1, Nat.mod_mul_right_div_self,
    Nat.mod_mod_of_dvd _ (dvd_mul_left 256 (256 ^ (6 - i)))]

lemma larsons_hash_mod (k : Nat) :
    larsons_hash (k % 72057594037927936) = larsons_hash k := by
  unfold larsons_hash
  simp only [byte_of_mod_low k 0 (by omega), byte_of_mod_low k 1 (by omega),
    byte_of_mod_low k 2 (by omega), byte_of_mod_low k 3 (by omega),
    byte_of_mod_low k 4 (by omega), byte_of_mod_low k 5 (by omega),
    byte_of_mod_low k 6 (by omega)]

/-- C10: the even-parity hash selector depends only on the low 56 bits
of the key: `larsons_hash` reads exactly seven bytes of the
little-endian key, so for every power-of-two table size and every two
keys agreeing on their low 7 bytes while differing in the most
significant byte, `hash_1` returns the same (even) slot although the
keys are distinct. -/
theorem c10_hash_1_ignores_top_byte (n k1 k2 : Nat)
    (hpow : ∃ m, 1 ≤ m ∧ n = 2 ^ m)
    (hlow : k1 % 72057594037927936 = k2 % 72057594037927936)
    (hhigh : k1 / 72057594037927936 ≠ k2 / 72057594037927936) :
    hash_1 n k1 = hash_1 n k2 ∧ k1 ≠ k2 := by
  have hl : larsons_hash k1 = larsons_hash k2 := by
    rw [← larsons_hash_mod k1, ← larsons_hash_mod k2, hlow]
  refine ⟨by unfold hash_1; rw [hl], ?_⟩
  intro he
  exact hhigh (by rw [he])

/-- Witness for C10: keys 1 and 2^56 + 1 share their low 7 bytes and
differ in the top byte; at table size 8 they receive the same even
slot from `hash_1`. -/
theorem c10_hash_1_ignores_top_byte_witness :
    (∃ m, 1 ≤ m ∧ (8 : Nat) = 2 ^ m) ∧
    (1 : Nat) % 72057594037927936 = 72057594037927937 % 72057594037927936 ∧
    (1 : Nat) / 72057594037927936 ≠ 72057594037927937 / 72057594037927936 ∧
    (hash_1 8 1 = hash_1 8 72057594037927937 ∧ (1 : Nat) ≠ 72057594037927937) := by
  refine ⟨⟨3, by norm_num⟩, by decide, by decide, ?_⟩
  exact c10_hash_1_ignores_top_byte 8 1 72057594037927937 ⟨3, by norm_num⟩
    (by decide) (by decide)

lemma insert_some_n_pos (fuel : Nat) (sc : SmallCuckoo) (k v : Nat) (sc' : SmallCuckoo)
    (h : small_cuckoo_insert fuel sc k v = some sc') : sc.n_entries ≠ 0 := by
  intro h0
  unfold small_cuckoo_insert at h
  rw [if_pos h0] at h
  exact absurd h (by simp)

/-- C9: `small_cuckoo_insert` never checks whether the key is already
present: every successful call appends a fresh entry to the entry store
and bumps the 16-bit entry counter by exactly one, so inserting the same
key twice (with any values) leaves two live entries carrying that key
rather than updating the first. -/
theorem c9_duplicate_keys_both_stored (fuel1 fuel2 : Nat) (sc sc1 sc2 : SmallCuckoo)
    (k v1 v2 : Nat) (hWF : WF sc)
    (h1 : small_cuckoo_insert fuel1 sc k v1 = some sc1)
    (h2 : small_cuckoo_insert fuel2 sc1 k v2 = some sc2) :
    sc1.entries = sc.entries ++ [(k, v1)] ∧
    sc2.entries = sc.entries ++ [(k, v1), (k, v2)] ∧
    sc1.entries.length = sc.entries.length + 1 ∧
    sc2.entries.length = sc1.entries.length + 1 ∧
    sc1.n_entries = (sc.n_entries + 1) % 65536 ∧
    sc2.n_entries = (sc1.n_entries + 1) % 65536 := by
  obtain ⟨hWF1, he1⟩ := small_cuckoo_insert_ok fuel1 sc k v1 sc1 hWF h1
  obtain ⟨hWF2, he2⟩ := small_cuckoo_insert_ok fuel2 sc1 k v2 sc2 hWF1 h2
  have hL1 : sc1.entries.length = sc.entries.length + 1 := by rw [he1]; simp
  have hL2 : sc2.entries.length = sc1.entries.length + 1 := by rw [he2]; simp
  have hstep : ∀ (a b : SmallCuckoo), WF a → WF b → a.n_entries ≠ 0 →
      b.entries.length = a.entries.length + 1 → b.n_entries = (a.n_entries + 1) % 65536 := by
    intro a b hWa hWb ha0 hlen
    rcases hWa.2.2.2.2 with ⟨hn, hle⟩ | ⟨hn0, -⟩
    · rcases hWb.2.2.2.2 with ⟨hn1, hle1⟩ | ⟨hn10, hlen1⟩
      · omega
      · omega
    · exact absurd hn0 ha0
  refine ⟨he1, ?_, hL1, hL2,
    hstep sc sc1 hWF hWF1 (insert_some_n_pos fuel1 sc k v1 sc1 h1) hL1,
    hstep sc1 sc2 hWF1 hWF2 (insert_some_n_pos fuel2 sc1 k v2 sc2 h2) hL2⟩
  rw [he2, he1, List.append_assoc]
  rfl

/-- Witness for C9: inserting key 5 twice (values 10 then 20) into a
fresh table appends two live entries with key 5. -/
theorem c9_duplicate_keys_both_stored_witness :
    WF (small_cuckoo_new 0 (0, 0)) ∧
    small_cuckoo_insert 0 (small_cuckoo_new 0 (0, 0)) 5 10 = some scD1 ∧
    small_cuckoo_insert 0 scD1 5 20 = some scD2 ∧
    (scD1.entries = (small_cuckoo_new 0 (0, 0)).entries ++ [(5, 10)] ∧
      scD2.entries = (small_cuckoo_new 0 (0, 0)).entries ++ [(5, 10), (5, 20)] ∧
      scD1.entries.length = (small_cuckoo_new 0 (0, 0)).entries.length + 1 ∧
      scD2.entries.length = scD1.entries.length + 1 ∧
      scD1.n_entries = ((small_cuckoo_new 0 (0, 0)).n_entries + 1) % 65536 ∧
      scD2.n_entries = (scD1.n_entries + 1) % 65536) := by
  refine ⟨WF_new 0 (0, 0), by decide, by decide, ?_⟩
  exact c9_duplicate_keys_both_stored 0 0 (small_cuckoo_new 0 (0, 0)) scD1 scD2 5 10 20
    (WF_new 0 (0, 0)) (by decide) (by decide)
